import Mathlib

/-!
Shallow embedding of the text-processing core of `hpe_cases_overview.py`
(HPE_Support_BOT).  Python strings are modelled as Lean `String` and, where
character-level scanning is needed, as `List Char`.  Python regular
expressions are translated into explicit character-list matchers that follow
the semantics of the concrete patterns appearing in the source (the matchers
are specialised to those patterns, including greediness and backtracking
behaviour where it is observable).  Python `\s` is modelled by the ASCII
whitespace characters it matches.
-/

/-- ASCII whitespace, as matched by Python `\s` / `str.strip` on the inputs
considered here. -/
def isPySpace (c : Char) : Bool :=
  c = ' ' || c = '\t' || c = '\n' || c = '\r' || c = '\x0b' || c = '\x0c'

/-- Whitespace inside a single line (no newline can occur in a split line). -/
def isLineSpace (c : Char) : Bool := isPySpace c

/-- Does `cs` start with `p` (exact characters)? -/
def startsWithL : List Char → List Char → Bool
  | [], _ => true
  | _ :: _, [] => false
  | p :: ps, c :: cs => (p = c) && startsWithL ps cs

/-- Contiguous-sublist test, the model of Python `needle in hay`. -/
def containsL (needle : List Char) : List Char → Bool
  | [] => needle.isEmpty
  | c :: cs => startsWithL needle (c :: cs) || containsL needle (cs)

/-- Python `needle in hay` on strings. -/
def containsSub (hay needle : String) : Bool :=
  containsL needle.toList hay.toList

/-- Python `str.lower()` (ASCII case folding, as used by the source). -/
def strLower (s : String) : String :=
  (s.toList.map Char.toLower).asString

/-- Python `str.strip()` on a character list. -/
def pyStrip (cs : List Char) : List Char :=
  ((cs.dropWhile isPySpace).reverse.dropWhile isPySpace).reverse

/-- Normalize newlines: `text.replace("\r\n", "\n").replace("\r", "\n")`. -/
def normNl : List Char → List Char
  | [] => []
  | '\r' :: '\n' :: rest => '\n' :: normNl rest
  | '\r' :: rest => '\n' :: normNl rest
  | c :: rest => c :: normNl rest

/-- `text.split("\n")` on a character list (keeps empty pieces). -/
def splitNl : List Char → List (List Char)
  | [] => [[]]
  | '\n' :: rest => [] :: splitNl rest
  | c :: rest =>
    match splitNl rest with
    | [] => [[c]]
    | l :: ls => (c :: l) :: ls

/-- `"\n".join`, the inverse of `splitNl` on newline-free lines. -/
def joinNl : List (List Char) → List Char
  | [] => []
  | [l] => l
  | l :: ls => l ++ '\n' :: joinNl ls

/-! ## Request Classifier (`infer_requested_actions`, src lines 1300-1353) -/

/-- The communication-text test of classifier rule 3 (log-request phrasings),
exactly the five substring tests of the source. -/
def isLogRequestText (c : String) : Bool :=
  containsSub c "log file request" || containsSub c "require some log files" ||
    containsSub c "provide these logs" || containsSub c "active health system" ||
    containsSub c "ahs log"

/-- The communication-text test of classifier rule 4 (onsite/dispatch
phrasings), exactly the substring tests of the source. -/
def isOnsiteText (c : String) : Bool :=
  containsSub c "onsite service" || containsSub c "onsite task" ||
    containsSub c "on the way to your location" ||
    containsSub c "is on the way to your location" ||
    (containsSub c "dispatch" && containsSub c "engineer")

/-- Embedding of `infer_requested_actions(status, comms)`: the ordered rule
cascade mapping (status, communication text) to (category, summary, actions). -/
def infer_requested_actions (status comms : String) : String × String × List String :=
  let st := strLower status
  let c := strLower comms
  if containsSub st "approve" && containsSub st "closure" then
    ("CLOSE_APPROVAL", "HPE wacht op goedkeuring om case te sluiten.",
     ["Bevestigen dat de case opgelost is en mag afgesloten worden (Approve case closure)."])
  else
    let r1 : String × String × List String :=
      if containsSub st "complete action plan" then
        ("ACTION_PLAN", "HPE wacht op completion van het action plan.",
         ["Action plan afronden en bevestigen in HPE portal (Complete action plan)."])
      else ("UNKNOWN", "", [])
    let r2 : String × String × List String :=
      if isLogRequestText c then
        ("LOG_REQUEST",
         "HPE vraagt logbestanden (AHS) + eventueel iLO/disk info om diagnose verder te zetten.",
         r1.2.2 ++ ["AHS / Active Health System log genereren en uploaden naar HPE dropbox (HPRC)."]
           ++ (if containsSub c "reply all" then
                ["Na upload: Reply All op HPE mail/thread om te bevestigen dat logs klaarstaan."]
              else [])
           ++ (if containsSub c "ilo storage" || containsSub c "photo of the physical drive"
                  || containsSub c "led" then
                ["Screenshot iLO Storage tab of foto fysieke disk/LEDs toevoegen."]
              else []))
      else r1
    if r2.2.2.isEmpty && isOnsiteText c then
      ("ONSITE_SERVICE", "HPE onsite interventie/dispatch loopt (technieker gepland/onderweg).",
       ["Check Onsite Service tab voor planning/status (task ID, scheduling status, latest service start).",
        "Zorg dat toegang/site contact klopt; bereid interventie/onderdelen/remote access voor."])
    else if r2.2.2.isEmpty && (containsSub st "in progress" || containsSub c "in progress") then
      ("IN_PROGRESS",
       "Case is in progress bij HPE (lopende opvolging, geen duidelijke customer action gedetecteerd).",
       ["Opvolgen: check laatste HPE update; reageer enkel als HPE iets vraagt."])
    else
      let r3 : String × String × List String :=
        if r2.2.2.isEmpty && containsSub st "awaiting customer action" then
          ("AWAITING", "Case staat op Awaiting Customer Action.",
           r2.2.2 ++ ["Customer action vereist: check laatste HPE communicatie voor exacte vraag."])
        else r2
      if r3.2.2.isEmpty then
        (r3.1, "Onvoldoende signalen om vraag automatisch te bepalen.",
         r3.2.2 ++ ["Manuele check Communications nodig."])
      else r3

/-- C3: a status containing both "approve" and "closure" short-circuits to
CLOSE_APPROVAL with the fixed summary and single fixed action, regardless of
the communication text. -/
theorem infer_close_approval (status comms : String)
    (h1 : containsSub (strLower status) "approve" = true)
    (h2 : containsSub (strLower status) "closure" = true) :
    infer_requested_actions status comms =
      ("CLOSE_APPROVAL", "HPE wacht op goedkeuring om case te sluiten.",
       ["Bevestigen dat de case opgelost is en mag afgesloten worden (Approve case closure)."]) := by
  unfold infer_requested_actions
  simp only [h1, h2]
  rfl

theorem infer_close_approval_witness :
    containsSub (strLower "Approve Case Closure") "approve" = true ∧
    containsSub (strLower "Approve Case Closure") "closure" = true ∧
    infer_requested_actions "Approve Case Closure" "please send ahs log and reply all" =
      ("CLOSE_APPROVAL", "HPE wacht op goedkeuring om case te sluiten.",
       ["Bevestigen dat de case opgelost is en mag afgesloten worden (Approve case closure)."]) :=
  ⟨by decide, by decide,
   infer_close_approval "Approve Case Closure" "please send ahs log and reply all"
     (by decide) (by decide)⟩

/-- C4: a status containing "complete action plan" (with rule 1 not firing)
yields category ACTION_PLAN with exactly one appended action when the
log-request rule does not fire; the log-request rule is still evaluated and,
when it fires, explicitly replaces the category with LOG_REQUEST and appends
its actions after the retained action-plan action. -/
theorem infer_action_plan (status comms : String)
    (h1 : (containsSub (strLower status) "approve" &&
            containsSub (strLower status) "closure") = false)
    (h2 : containsSub (strLower status) "complete action plan" = true) :
    (isLogRequestText (strLower comms) = false →
      infer_requested_actions status comms =
        ("ACTION_PLAN", "HPE wacht op completion van het action plan.",
         ["Action plan afronden en bevestigen in HPE portal (Complete action plan)."])) ∧
    (isLogRequestText (strLower comms) = true →
      (infer_requested_actions status comms).1 = "LOG_REQUEST" ∧
      (infer_requested_actions status comms).2.2.head? =
        some "Action plan afronden en bevestigen in HPE portal (Complete action plan)." ∧
      2 ≤ (infer_requested_actions status comms).2.2.length) := by
  constructor
  · intro hl
    unfold infer_requested_actions
    simp only [h1, h2, hl]
    rfl
  · intro hl
    have hcons : ∃ zs, (infer_requested_actions status comms).2.2 =
        "Action plan afronden en bevestigen in HPE portal (Complete action plan)." ::
        "AHS / Active Health System log genereren en uploaden naar HPE dropbox (HPRC)." :: zs := by
      unfold infer_requested_actions
      simp only [h1, h2, hl]
      exact ⟨_, rfl⟩
    obtain ⟨zs, hz⟩ := hcons
    refine ⟨?_, ?_, ?_⟩
    · unfold infer_requested_actions
      simp only [h1, h2, hl]
      rfl
    · rw [hz]
      rfl
    · rw [hz]
      simp

theorem infer_action_plan_witness :
    ((containsSub (strLower "Complete Action Plan") "approve" &&
       containsSub (strLower "Complete Action Plan") "closure") = false) ∧
    (containsSub (strLower "Complete Action Plan") "complete action plan" = true) ∧
    (isLogRequestText (strLower "we require some log files from the server") = true) ∧
    ((infer_requested_actions "Complete Action Plan"
        "we require some log files from the server").1 = "LOG_REQUEST") :=
  ⟨by decide, by decide, by decide,
   ((infer_action_plan "Complete Action Plan" "we require some log files from the server"
      (by decide) (by decide)).2 (by decide)).1⟩

/-- C10: for every pair of input strings the classifier returns a category
from the fixed seven-element set, a non-empty summary, and a non-empty
actions list. -/
theorem infer_total (status comms : String) :
    (infer_requested_actions status comms).1 ∈
      ["CLOSE_APPROVAL", "ACTION_PLAN", "LOG_REQUEST", "ONSITE_SERVICE",
       "IN_PROGRESS", "AWAITING", "UNKNOWN"] ∧
    (infer_requested_actions status comms).2.1 ≠ "" ∧
    (infer_requested_actions status comms).2.2 ≠ [] := by
  simp only [infer_requested_actions]
  repeat' split <;> simp_all

/-! ## Redaction (`redact_sensitive`, src lines 78-98)

The source applies, over the whole text, four line-anchored substitutions
`(?im)^\s*(LABEL\s*:\s*).+$  ->  \1[REDACTED]` for the labels Password,
Password Token, Wrap token, Token, followed by three inline substitutions
`(?i)(LABEL\s*:\s*)([^\s\r\n]+)  ->  \1[REDACTED]` for Password,
Password Token and Wrap token (there is no inline rule for the bare Token
label).  Python `\s` matches `\n`, so the `\s*` pieces of every pattern can
cross line breaks; the substitutions are therefore modelled over the whole
text: the anchored patterns are attempted exactly at the `(?m)` line-start
positions, the inline patterns at every position, matches are non-overlapping
and scanning resumes after each match, as `re.sub` does. -/

/-- Case-insensitive match of a lowercase literal, keeping the original
characters; returns (matched, rest). -/
def matchCIKeep : List Char → List Char → Option (List Char × List Char)
  | [], cs => some ([], cs)
  | _ :: _, [] => none
  | p :: ps, c :: cs =>
    if c.toLower = p then
      match matchCIKeep ps cs with
      | some (m, rest) => some (c :: m, rest)
      | none => none
    else none

/-- Match label words separated by greedy `\s*`, keeping matched text. -/
def matchWordsCI : List (List Char) → List Char → Option (List Char × List Char)
  | [], cs => some ([], cs)
  | [w], cs => matchCIKeep w cs
  | w :: w2 :: ws, cs =>
    match matchCIKeep w cs with
    | none => none
    | some (m, rest) =>
      let sp := rest.takeWhile isLineSpace
      let rest2 := rest.dropWhile isLineSpace
      match matchWordsCI (w2 :: ws) rest2 with
      | none => none
      | some (m2, rest3) => some (m ++ sp ++ m2, rest3)

/-- The line-anchored pattern `(?im)^\s*(LABEL\s*:\s*).+$` attempted at one
line-start position of the text.  The leading `^\s*` (dropped from the
replacement), the gaps inside the label and the `\s*` around the colon may
all cross line breaks; `.+` matches at least one non-newline character and
`$` holds before a newline or at the end of the text.  When only whitespace
follows the colon up to the end of the text, the greedy `\s*` inside group 1
backtracks to the last whitespace character that is not a newline, which
`.+` then consumes.  Returns the replacement `\1[REDACTED]` for the matched
span together with the rest of the text after the match. -/
def tryAnchoredAt (words : List (List Char)) (cs : List Char) :
    Option (List Char × List Char) :=
  match matchWordsCI words (cs.dropWhile isPySpace) with
  | none => none
  | some (lbl, r1) =>
    let sp0 := r1.takeWhile isPySpace
    match r1.dropWhile isPySpace with
    | ':' :: r2 =>
      let sp := r2.takeWhile isPySpace
      let rest := r2.dropWhile isPySpace
      if rest ≠ [] then
        some (lbl ++ sp0 ++ [':'] ++ sp ++ "[REDACTED]".toList,
              rest.dropWhile (fun c => !(c == '\n')))
      else
        let nTail := (sp.reverse.takeWhile (fun c => c == '\n')).length
        if nTail < sp.length then
          some (lbl ++ sp0 ++ [':'] ++ sp.take (sp.length - nTail - 1) ++
                  "[REDACTED]".toList,
                sp.drop (sp.length - nTail))
        else none
    | _ => none

/-- One inline pattern `(?i)(LABEL\s*:\s*)([^\s\r\n]+)` tried at the start of
`cs`; `some` holds (replacement for the matched span, rest of the text). -/
def matchInlineAt (words : List (List Char)) (cs : List Char) : Option (List Char × List Char) :=
  match matchWordsCI words cs with
  | none => none
  | some (lbl, r1) =>
    let sp0 := r1.takeWhile isLineSpace
    match r1.dropWhile isLineSpace with
    | ':' :: r2 =>
      let sp := r2.takeWhile isLineSpace
      let r3 := r2.dropWhile isLineSpace
      let v := r3.takeWhile (fun c => !isPySpace c)
      if v ≠ [] then
        some (lbl ++ sp0 ++ [':'] ++ sp ++ "[REDACTED]".toList,
              r3.dropWhile (fun c => !isPySpace c))
      else none
    | _ => none

/-- Left-to-right, non-overlapping application of one inline pattern (the
fuel only bounds the recursion; `fuel = cs.length` always suffices since a
match consumes at least one character). -/
def inlineSubFuel (words : List (List Char)) : Nat → List Char → List Char
  | 0, cs => cs
  | _ + 1, [] => []
  | fuel + 1, c :: cs =>
    match matchInlineAt words (c :: cs) with
    | some (rep, rest) => rep ++ inlineSubFuel words fuel rest
    | none => c :: inlineSubFuel words fuel cs

def inlineSub (words : List (List Char)) (cs : List Char) : List Char :=
  inlineSubFuel words cs.length cs

def pwWords : List (List Char) := ["password".toList]

def pwTokWords : List (List Char) := ["password".toList, "token".toList]

def wrapTokWords : List (List Char) := ["wrap".toList, "token".toList]

def tokWords : List (List Char) := ["token".toList]

/-- `re.sub` with one line-anchored pattern over the whole text: match
attempts happen exactly at line-start positions (`^` under `(?m)`), matches
are non-overlapping and scanning resumes after each match.  The Bool records
whether the current position is a line start; the fuel only bounds the
recursion (`fuel = cs.length` always suffices since a match consumes at
least one character). -/
def anchoredScan (words : List (List Char)) : Bool → Nat → List Char → List Char
  | _, 0, cs => cs
  | _, _ + 1, [] => []
  | atStart, fuel + 1, c :: cs =>
    if atStart then
      match tryAnchoredAt words (c :: cs) with
      | some (rep, rem) => rep ++ anchoredScan words false fuel rem
      | none => c :: anchoredScan words (c == '\n') fuel cs
    else c :: anchoredScan words (c == '\n') fuel cs

def anchoredSub (words : List (List Char)) (cs : List Char) : List Char :=
  anchoredScan words true cs.length cs

/-- Embedding of `redact_sensitive(text)`: the four line-anchored
substitutions followed by the three inline fallbacks, each applied over the
whole text, in the source's order. -/
def redact_sensitive (text : String) : String :=
  if text = "" then ""
  else
    (inlineSub wrapTokWords (inlineSub pwTokWords (inlineSub pwWords
      (anchoredSub tokWords (anchoredSub wrapTokWords (anchoredSub pwTokWords
        (anchoredSub pwWords text.toList))))))).asString

/-- No inline match begins at any position inside the segment `s` when the
text continues with `t`. -/
def noInlineIn (words : List (List Char)) : List Char → List Char → Bool
  | [], _ => true
  | c :: s, t => (matchInlineAt words (c :: (s ++ t))).isNone && noInlineIn words s t

theorem splitNl_cons_ne (c : Char) (rest : List Char) (hc : c ≠ '\n') :
    splitNl (c :: rest) = match splitNl rest with
      | [] => [[c]]
      | l :: ls => (c :: l) :: ls := by
  rw [splitNl.eq_def]
  simp [hc]

theorem splitNl_no_newline (l : List Char) (h : '\n' ∉ l) : splitNl l = [l] := by
  induction l with
  | nil => rfl
  | cons c rest ih =>
    have hc : c ≠ '\n' := fun hh => h (hh ▸ List.mem_cons_self c rest)
    rw [splitNl_cons_ne c rest hc, ih (fun hm => h (List.mem_cons_of_mem c hm))]

theorem splitNl_append (l t : List Char) (h : '\n' ∉ l) :
    splitNl (l ++ '\n' :: t) = l :: splitNl t := by
  induction l with
  | nil => rfl
  | cons c rest ih =>
    have hc : c ≠ '\n' := fun hh => h (hh ▸ List.mem_cons_self c rest)
    rw [List.cons_append, splitNl_cons_ne c _ hc,
      ih (fun hm => h (List.mem_cons_of_mem c hm))]

theorem splitNl_joinNl : ∀ ls : List (List Char), ls ≠ [] →
    (∀ l ∈ ls, '\n' ∉ l) → splitNl (joinNl ls) = ls := by
  intro ls
  induction ls with
  | nil => intro h; exact absurd rfl h
  | cons l ls ih =>
    intro _ hnl
    cases ls with
    | nil => exact splitNl_no_newline l (hnl l (List.mem_cons_self l []))
    | cons l2 ls2 =>
      show splitNl (l ++ '\n' :: joinNl (l2 :: ls2)) = l :: l2 :: ls2
      rw [splitNl_append l _ (hnl l (List.mem_cons_self l _)),
        ih (by simp) (fun x hx => hnl x (List.mem_cons_of_mem l hx))]

theorem matchCIKeep_startsWith : ∀ (w cs r1 r2 : List Char),
    matchCIKeep w cs = some (r1, r2) →
    startsWithL w (cs.map Char.toLower) = true := by
  intro w
  induction w with
  | nil => intro cs r1 r2 _; rfl
  | cons p ps ih =>
    intro cs r1 r2 h
    cases cs with
    | nil => cases h
    | cons c cs2 =>
      unfold matchCIKeep at h
      by_cases hc : c.toLower = p
      · rw [if_pos hc] at h
        cases hm : matchCIKeep ps cs2 with
        | none => rw [hm] at h; cases h
        | some r =>
          have h1 : startsWithL ps (cs2.map Char.toLower) = true := ih cs2 r.1 r.2 hm
          simp [startsWithL, hc, h1]
      · rw [if_neg hc] at h
        cases h

theorem matchWordsCI_startsWith (w : List Char) (ws : List (List Char)) (cs r1 r2 : List Char)
    (h : matchWordsCI (w :: ws) cs = some (r1, r2)) :
    startsWithL w (cs.map Char.toLower) = true := by
  cases ws with
  | nil => exact matchCIKeep_startsWith w cs r1 r2 h
  | cons w2 ws2 =>
    unfold matchWordsCI at h
    cases hm : matchCIKeep w cs with
    | none => rw [hm] at h; cases h
    | some r => exact matchCIKeep_startsWith w cs r.1 r.2 hm

theorem startsWithL_skip_nl : ∀ (w A t : List Char), (∀ c ∈ w, c ≠ '\n') →
    startsWithL w (A ++ '\n' :: t) = true → startsWithL w A = true := by
  intro w
  induction w with
  | nil => intro A t _ _; rfl
  | cons p ps ih =>
    intro A t hw h
    cases A with
    | nil =>
      exfalso
      rw [List.nil_append] at h
      have h2 : (decide (p = '\n') && startsWithL ps t) = true := h
      rw [Bool.and_eq_true] at h2
      exact hw p (List.mem_cons_self p ps) (of_decide_eq_true h2.1)
    | cons a A2 =>
      have h2 : (decide (p = a) && startsWithL ps (A2 ++ '\n' :: t)) = true := h
      rw [Bool.and_eq_true] at h2
      have h5 := ih A2 t (fun c hc => hw c (List.mem_cons_of_mem p hc)) h2.2
      show (decide (p = a) && startsWithL ps A2) = true
      rw [h2.1, h5]
      rfl

theorem containsL_append_false (w : List Char) :
    ∀ u v, containsL w (u ++ v) = false → containsL w v = false := by
  intro u
  induction u with
  | nil => intro v h; exact h
  | cons x u2 ih =>
    intro v h
    have h2 : (startsWithL w (x :: (u2 ++ v)) || containsL w (u2 ++ v)) = false := h
    rcases Bool.or_eq_false_iff.1 h2 with ⟨-, h3⟩
    exact ih v h3

theorem containsL_of_startsWithL (w v : List Char) (hw : w ≠ [])
    (h : startsWithL w v = true) : containsL w v = true := by
  cases v with
  | nil =>
    cases w with
    | nil => exact absurd rfl hw
    | cons p ps => cases h
  | cons c v2 =>
    show (startsWithL w (c :: v2) || containsL w v2) = true
    rw [h]
    rfl

theorem matchWordsCI_nil_none (w : List Char) (ws : List (List Char)) (hw : w ≠ []) :
    matchWordsCI (w :: ws) [] = none := by
  cases w with
  | nil => exact absurd rfl hw
  | cons p ps =>
    cases ws with
    | nil => rfl
    | cons w2 ws2 => rfl

theorem matchWordsCI_none_of_no_occurrence (w : List Char) (ws : List (List Char))
    (v t : List Char) (hw : w ≠ []) (hnl : ∀ c ∈ w, c ≠ '\n')
    (hocc : containsL w (v.map Char.toLower) = false)
    (ht : t = [] ∨ ∃ t2, t = '\n' :: t2) :
    matchWordsCI (w :: ws) (v ++ t) = none := by
  cases hm : matchWordsCI (w :: ws) (v ++ t) with
  | none => rfl
  | some r =>
    exfalso
    have hs := matchWordsCI_startsWith w ws (v ++ t) r.1 r.2 hm
    rw [List.map_append] at hs
    have hs2 : startsWithL w (v.map Char.toLower) = true := by
      rcases ht with rfl | ⟨t2, rfl⟩
      · simpa using hs
      · have he : (('\n' :: t2).map Char.toLower) = '\n' :: t2.map Char.toLower := rfl
        rw [he] at hs
        exact startsWithL_skip_nl w _ _ hnl hs
    have hcv := containsL_of_startsWithL w _ hw hs2
    rw [hocc] at hcv
    cases hcv

theorem dropWhile_append_of_ne_nil : ∀ (l t : List Char) (p : Char → Bool),
    l.dropWhile p ≠ [] → (l ++ t).dropWhile p = l.dropWhile p ++ t := by
  intro l
  induction l with
  | nil => intro t p h; exact absurd rfl h
  | cons c l2 ih =>
    intro t p h
    cases hc : p c with
    | true =>
      have e1 : (c :: l2).dropWhile p = l2.dropWhile p := by
        simp [List.dropWhile_cons, hc]
      have e2 : ((c :: l2) ++ t).dropWhile p = (l2 ++ t).dropWhile p := by
        simp [List.cons_append, List.dropWhile_cons, hc]
      rw [e1] at h ⊢
      rw [e2, ih t p h]
    | false =>
      have e1 : (c :: l2).dropWhile p = c :: l2 := by
        simp [List.dropWhile_cons, hc]
      have e2 : ((c :: l2) ++ t).dropWhile p = c :: (l2 ++ t) := by
        simp [List.cons_append, List.dropWhile_cons, hc]
      rw [e1, e2]
      rfl

theorem containsL_dropWhile_false (w l : List Char) (p : Char → Bool)
    (hocc : containsL w (l.map Char.toLower) = false) :
    containsL w ((l.dropWhile p).map Char.toLower) = false := by
  apply containsL_append_false w ((l.takeWhile p).map Char.toLower)
  rw [← List.map_append, List.takeWhile_append_dropWhile]
  exact hocc

theorem tryAnchoredAt_none (w : List Char) (ws : List (List Char)) (l t : List Char)
    (hw : w ≠ []) (hnl : ∀ c ∈ w, c ≠ '\n')
    (hocc : containsL w (l.map Char.toLower) = false)
    (ht : t = [] ∨ ∃ t2, t = '\n' :: t2)
    (hld : l.dropWhile isPySpace ≠ [] ∨ t = []) :
    tryAnchoredAt (w :: ws) (l ++ t) = none := by
  have key : matchWordsCI (w :: ws) ((l ++ t).dropWhile isPySpace) = none := by
    rcases hld with hld | rfl
    · rw [dropWhile_append_of_ne_nil l t isPySpace hld]
      exact matchWordsCI_none_of_no_occurrence w ws _ t hw hnl
        (containsL_dropWhile_false w l isPySpace hocc) ht
    · rw [List.append_nil]
      have h2 := matchWordsCI_none_of_no_occurrence w ws (l.dropWhile isPySpace) [] hw hnl
        (containsL_dropWhile_false w l isPySpace hocc) (Or.inl rfl)
      rw [List.append_nil] at h2
      exact h2
  unfold tryAnchoredAt
  rw [key]

theorem matchInlineAt_nl (w : List Char) (ws : List (List Char)) (u : List Char)
    (hw : w ≠ []) (hnl : ∀ c ∈ w, c ≠ '\n') :
    matchInlineAt (w :: ws) ('\n' :: u) = none := by
  have key : matchWordsCI (w :: ws) ('\n' :: u) = none := by
    cases hm : matchWordsCI (w :: ws) ('\n' :: u) with
    | none => rfl
    | some r =>
      exfalso
      have hs := matchWordsCI_startsWith w ws _ r.1 r.2 hm
      cases w with
      | nil => exact hw rfl
      | cons p ps =>
        have h2 : (decide (p = Char.toLower '\n') && startsWithL ps (u.map Char.toLower)) = true := hs
        rw [Bool.and_eq_true] at h2
        exact hnl p (List.mem_cons_self p ps) (of_decide_eq_true h2.1)
  unfold matchInlineAt
  rw [key]

theorem matchInlineAt_none_of_no_occurrence (w : List Char) (ws : List (List Char))
    (v t : List Char) (hw : w ≠ []) (hnl : ∀ c ∈ w, c ≠ '\n')
    (hocc : containsL w (v.map Char.toLower) = false)
    (ht : t = [] ∨ ∃ t2, t = '\n' :: t2) :
    matchInlineAt (w :: ws) (v ++ t) = none := by
  unfold matchInlineAt
  rw [matchWordsCI_none_of_no_occurrence w ws v t hw hnl hocc ht]

theorem noInlineIn_true (w : List Char) (ws : List (List Char)) :
    ∀ (l t : List Char), w ≠ [] → (∀ c ∈ w, c ≠ '\n') →
    containsL w (l.map Char.toLower) = false →
    (t = [] ∨ ∃ t2, t = '\n' :: t2) →
    noInlineIn (w :: ws) l t = true := by
  intro l
  induction l with
  | nil => intro t _ _ _ _; rfl
  | cons c l2 ih =>
    intro t hw hnl hocc ht
    have hocc2 : containsL w (l2.map Char.toLower) = false := by
      have h2 : (startsWithL w (Char.toLower c :: l2.map Char.toLower) ||
          containsL w (l2.map Char.toLower)) = false := hocc
      exact (Bool.or_eq_false_iff.1 h2).2
    have hmi : matchInlineAt (w :: ws) (c :: (l2 ++ t)) = none := by
      have h3 := matchInlineAt_none_of_no_occurrence w ws (c :: l2) t hw hnl hocc ht
      rw [List.cons_append] at h3
      exact h3
    show ((matchInlineAt (w :: ws) (c :: (l2 ++ t))).isNone && noInlineIn (w :: ws) l2 t) = true
    rw [hmi, ih t hw hnl hocc2 ht]
    rfl

theorem inlineSubFuel_nil (words : List (List Char)) (k : Nat) :
    inlineSubFuel words k [] = [] := by
  cases k <;> rfl

theorem inlineSubFuel_seg (words : List (List Char)) :
    ∀ (s t : List Char) (k : Nat), noInlineIn words s t = true →
    inlineSubFuel words (s.length + k) (s ++ t) = s ++ inlineSubFuel words k t := by
  intro s
  induction s with
  | nil =>
    intro t k _
    rw [List.nil_append, List.length_nil, Nat.zero_add, List.nil_append]
  | cons c s2 ih =>
    intro t k h
    have h2 : ((matchInlineAt words (c :: (s2 ++ t))).isNone && noInlineIn words s2 t) = true := h
    rw [Bool.and_eq_true] at h2
    have h5 : matchInlineAt words (c :: (s2 ++ t)) = none := by
      cases hx : matchInlineAt words (c :: (s2 ++ t))
      · rfl
      · rw [hx] at h2; cases h2.1
    have hf : (c :: s2).length + k = (s2.length + k) + 1 := by
      simp only [List.length_cons]; omega
    rw [hf]
    show inlineSubFuel words ((s2.length + k) + 1) (c :: (s2 ++ t)) =
      c :: (s2 ++ inlineSubFuel words k t)
    have step : inlineSubFuel words ((s2.length + k) + 1) (c :: (s2 ++ t)) =
        match matchInlineAt words (c :: (s2 ++ t)) with
        | some (rep, rest) => rep ++ inlineSubFuel words (s2.length + k) rest
        | none => c :: inlineSubFuel words (s2.length + k) (s2 ++ t) := rfl
    rw [step, h5, ih t k h2.2]

theorem inlineSubFuel_hit (words : List (List Char)) (c : Char) (u rep rem : List Char) (k : Nat)
    (h : matchInlineAt words (c :: u) = some (rep, rem)) :
    inlineSubFuel words (k + 1) (c :: u) = rep ++ inlineSubFuel words k rem := by
  have step : inlineSubFuel words (k + 1) (c :: u) =
      match matchInlineAt words (c :: u) with
      | some (rep, rest) => rep ++ inlineSubFuel words k rest
      | none => c :: inlineSubFuel words k u := rfl
  rw [step, h]

theorem anchoredScan_nil (words : List (List Char)) (flag : Bool) (k : Nat) :
    anchoredScan words flag k [] = [] := by
  cases k <;> rfl

theorem anchoredScan_nf (words : List (List Char)) :
    ∀ (s t : List Char) (k : Nat), '\n' ∉ s →
    anchoredScan words false (s.length + k) (s ++ t) = s ++ anchoredScan words false k t := by
  intro s
  induction s with
  | nil =>
    intro t k _
    rw [List.nil_append, List.length_nil, Nat.zero_add, List.nil_append]
  | cons c s2 ih =>
    intro t k h
    have hc : c ≠ '\n' := fun e => h (e ▸ List.mem_cons_self c s2)
    have hcb : (c == '\n') = false := by simp [hc]
    have hf : (c :: s2).length + k = (s2.length + k) + 1 := by
      simp only [List.length_cons]; omega
    rw [hf]
    show anchoredScan words false ((s2.length + k) + 1) (c :: (s2 ++ t)) =
      c :: (s2 ++ anchoredScan words false k t)
    have step : anchoredScan words false ((s2.length + k) + 1) (c :: (s2 ++ t)) =
        c :: anchoredScan words (c == '\n') (s2.length + k) (s2 ++ t) := rfl
    rw [step, hcb, ih t k (fun m => h (List.mem_cons_of_mem c m))]

theorem anchoredScan_start_fail (words : List (List Char)) (s t : List Char) (k : Nat)
    (hs : s ≠ []) (hnl : '\n' ∉ s)
    (h : tryAnchoredAt words (s ++ t) = none) :
    anchoredScan words true (s.length + k) (s ++ t) = s ++ anchoredScan words false k t := by
  cases s with
  | nil => exact absurd rfl hs
  | cons c s2 =>
    have hc : c ≠ '\n' := fun e => hnl (e ▸ List.mem_cons_self c s2)
    have hcb : (c == '\n') = false := by simp [hc]
    have hf : (c :: s2).length + k = (s2.length + k) + 1 := by
      simp only [List.length_cons]; omega
    rw [hf]
    show anchoredScan words true ((s2.length + k) + 1) (c :: (s2 ++ t)) =
      c :: (s2 ++ anchoredScan words false k t)
    have step : anchoredScan words true ((s2.length + k) + 1) (c :: (s2 ++ t)) =
        match tryAnchoredAt words (c :: (s2 ++ t)) with
        | some (rep, rem) => rep ++ anchoredScan words false (s2.length + k) rem
        | none => c :: anchoredScan words (c == '\n') (s2.length + k) (s2 ++ t) := rfl
    have h2 : tryAnchoredAt words (c :: (s2 ++ t)) = none := by
      rw [← List.cons_append]
      exact h
    rw [step, h2, hcb, anchoredScan_nf words s2 t k (fun m => hnl (List.mem_cons_of_mem c m))]

theorem anchoredScan_nl (words : List (List Char)) (u : List Char) (k : Nat) :
    anchoredScan words false (k + 1) ('\n' :: u) = '\n' :: anchoredScan words true k u := rfl

theorem anchoredScan_hit (words : List (List Char)) (c : Char) (u rep rem : List Char) (k : Nat)
    (h : tryAnchoredAt words (c :: u) = some (rep, rem)) :
    anchoredScan words true (k + 1) (c :: u) = rep ++ anchoredScan words false k rem := by
  have step : anchoredScan words true (k + 1) (c :: u) =
      match tryAnchoredAt words (c :: u) with
      | some (rep, rem) => rep ++ anchoredScan words false k rem
      | none => c :: anchoredScan words (c == '\n') k u := rfl
  rw [step, h]

theorem anchoredScan_end (words : List (List Char)) (s : List Char) (k : Nat)
    (hnl : '\n' ∉ s) (h : tryAnchoredAt words s = none) :
    anchoredScan words true (s.length + k) s = s := by
  cases hs : s with
  | nil => exact anchoredScan_nil words true _
  | cons c s2 =>
    subst hs
    have h2 : tryAnchoredAt words ((c :: s2) ++ []) = none := by
      rw [List.append_nil]; exact h
    have h3 := anchoredScan_start_fail words (c :: s2) [] k (by simp) hnl h2
    rw [List.append_nil] at h3
    rw [h3, anchoredScan_nil, List.append_nil]

theorem inlineSubFuel_no (words : List (List Char)) (c : Char) (u : List Char) (k : Nat)
    (h : matchInlineAt words (c :: u) = none) :
    inlineSubFuel words (k + 1) (c :: u) = c :: inlineSubFuel words k u := by
  have step : inlineSubFuel words (k + 1) (c :: u) =
      match matchInlineAt words (c :: u) with
      | some (rep, rest) => rep ++ inlineSubFuel words k rest
      | none => c :: inlineSubFuel words k u := rfl
  rw [step, h]

theorem inlineSubFuel_end (words : List (List Char)) (s : List Char) (k : Nat)
    (h : noInlineIn words s [] = true) :
    inlineSubFuel words (s.length + k) s = s := by
  have h2 := inlineSubFuel_seg words s [] k h
  rw [List.append_nil] at h2
  rw [h2, inlineSubFuel_nil, List.append_nil]

theorem anchoredSub_ctx_hit (w : List Char) (ws : List (List Char))
    (l1 mid mid2 l2 : List Char)
    (hw : w ≠ []) (hnlw : ∀ c ∈ w, c ≠ '\n')
    (hl1nl : '\n' ∉ l1) (hl1d : l1.dropWhile isPySpace ≠ [])
    (hl1occ : containsL w (l1.map Char.toLower) = false)
    (hl2nl : '\n' ∉ l2)
    (hl2occ : containsL w (l2.map Char.toLower) = false)
    (hmidne : mid ≠ [])
    (hmid : tryAnchoredAt (w :: ws) (mid ++ '\n' :: l2) = some (mid2, '\n' :: l2)) :
    anchoredSub (w :: ws) (l1 ++ '\n' :: (mid ++ '\n' :: l2)) =
      l1 ++ '\n' :: (mid2 ++ '\n' :: l2) := by
  unfold anchoredSub
  have hlen : (l1 ++ '\n' :: (mid ++ '\n' :: l2)).length =
      l1.length + ((mid.length + (l2.length + 1)) + 1) := by
    simp only [List.length_append, List.length_cons]
    try omega
  rw [hlen]
  have hl1ne : l1 ≠ [] := by
    intro e; rw [e] at hl1d; exact hl1d rfl
  have h0 : tryAnchoredAt (w :: ws) (l1 ++ '\n' :: (mid ++ '\n' :: l2)) = none :=
    tryAnchoredAt_none w ws l1 _ hw hnlw hl1occ (Or.inr ⟨_, rfl⟩) (Or.inl hl1d)
  rw [anchoredScan_start_fail (w :: ws) l1 _ _ hl1ne hl1nl h0]
  congr 1
  rw [anchoredScan_nl]
  congr 1
  obtain ⟨c, m2, rfl⟩ : ∃ c m2, mid = c :: m2 := by
    cases mid with
    | nil => exact absurd rfl hmidne
    | cons a b => exact ⟨a, b, rfl⟩
  rw [List.cons_append] at hmid ⊢
  have hfc : (c :: m2).length + (l2.length + 1) = ((l2.length + m2.length) + 1) + 1 := by
    simp only [List.length_cons]; omega
  rw [hfc, anchoredScan_hit (w :: ws) c _ mid2 ('\n' :: l2) _ hmid]
  congr 1
  rw [anchoredScan_nl]
  congr 1
  have hend : tryAnchoredAt (w :: ws) l2 = none := by
    have h2 := tryAnchoredAt_none w ws l2 [] hw hnlw hl2occ (Or.inl rfl) (Or.inr rfl)
    rw [List.append_nil] at h2
    exact h2
  have hf4 : l2.length + m2.length = l2.length + m2.length := rfl
  exact anchoredScan_end (w :: ws) l2 m2.length hl2nl hend

theorem anchoredSub_ctx_id (w : List Char) (ws : List (List Char))
    (l1 mid l2 : List Char)
    (hw : w ≠ []) (hnlw : ∀ c ∈ w, c ≠ '\n')
    (hl1nl : '\n' ∉ l1) (hl1d : l1.dropWhile isPySpace ≠ [])
    (hl1occ : containsL w (l1.map Char.toLower) = false)
    (hl2nl : '\n' ∉ l2)
    (hl2occ : containsL w (l2.map Char.toLower) = false)
    (hmidne : mid ≠ []) (hmidnl : '\n' ∉ mid)
    (hmid : tryAnchoredAt (w :: ws) (mid ++ '\n' :: l2) = none) :
    anchoredSub (w :: ws) (l1 ++ '\n' :: (mid ++ '\n' :: l2)) =
      l1 ++ '\n' :: (mid ++ '\n' :: l2) := by
  unfold anchoredSub
  have hlen : (l1 ++ '\n' :: (mid ++ '\n' :: l2)).length =
      l1.length + ((mid.length + (l2.length + 1)) + 1) := by
    simp only [List.length_append, List.length_cons]
    try omega
  rw [hlen]
  have hl1ne : l1 ≠ [] := by
    intro e; rw [e] at hl1d; exact hl1d rfl
  have h0 : tryAnchoredAt (w :: ws) (l1 ++ '\n' :: (mid ++ '\n' :: l2)) = none :=
    tryAnchoredAt_none w ws l1 _ hw hnlw hl1occ (Or.inr ⟨_, rfl⟩) (Or.inl hl1d)
  rw [anchoredScan_start_fail (w :: ws) l1 _ _ hl1ne hl1nl h0]
  congr 1
  rw [anchoredScan_nl]
  congr 1
  rw [anchoredScan_start_fail (w :: ws) mid ('\n' :: l2) (l2.length + 1) hmidne hmidnl hmid]
  congr 1
  rw [anchoredScan_nl]
  congr 1
  have hend : tryAnchoredAt (w :: ws) l2 = none := by
    have h2 := tryAnchoredAt_none w ws l2 [] hw hnlw hl2occ (Or.inl rfl) (Or.inr rfl)
    rw [List.append_nil] at h2
    exact h2
  rw [show l2.length = l2.length + 0 from rfl]
  exact anchoredScan_end (w :: ws) l2 0 hl2nl hend

theorem inlineSub_ctx_id (w : List Char) (ws : List (List Char))
    (l1 mid l2 : List Char)
    (hw : w ≠ []) (hnlw : ∀ c ∈ w, c ≠ '\n')
    (hl1occ : containsL w (l1.map Char.toLower) = false)
    (hl2occ : containsL w (l2.map Char.toLower) = false)
    (hmidClean : noInlineIn (w :: ws) ('\n' :: mid) ('\n' :: l2) = true) :
    inlineSub (w :: ws) (l1 ++ '\n' :: (mid ++ '\n' :: l2)) =
      l1 ++ '\n' :: (mid ++ '\n' :: l2) := by
  unfold inlineSub
  have hlen : (l1 ++ '\n' :: (mid ++ '\n' :: l2)).length =
      l1.length + (('\n' :: mid).length + (('\n' :: l2).length + 0)) := by
    simp only [List.length_append, List.length_cons]
    try omega
  rw [hlen]
  rw [inlineSubFuel_seg (w :: ws) l1 _ _
    (noInlineIn_true w ws l1 _ hw hnlw hl1occ (Or.inr ⟨_, rfl⟩))]
  congr 1
  rw [show ('\n' :: (mid ++ '\n' :: l2) : List Char) = ('\n' :: mid) ++ ('\n' :: l2) by
    rw [List.cons_append]]
  rw [inlineSubFuel_seg (w :: ws) ('\n' :: mid) ('\n' :: l2) _ hmidClean]
  congr 1
  have hclean2 : noInlineIn (w :: ws) ('\n' :: l2) [] = true := by
    show ((matchInlineAt (w :: ws) ('\n' :: (l2 ++ []))).isNone &&
      noInlineIn (w :: ws) l2 []) = true
    rw [List.append_nil, matchInlineAt_nl w ws l2 hw hnlw,
      noInlineIn_true w ws l2 [] hw hnlw hl2occ (Or.inl rfl)]
    rfl
  exact inlineSubFuel_end (w :: ws) ('\n' :: l2) 0 hclean2

theorem inlineSub_ctx_hit (w : List Char) (ws : List (List Char))
    (l1 mid l2 : List Char)
    (hw : w ≠ []) (hnlw : ∀ c ∈ w, c ≠ '\n')
    (hl1occ : containsL w (l1.map Char.toLower) = false)
    (hl2occ : containsL w (l2.map Char.toLower) = false)
    (hmidne : mid ≠ [])
    (hmid : matchInlineAt (w :: ws) (mid ++ '\n' :: l2) = some (mid, '\n' :: l2)) :
    inlineSub (w :: ws) (l1 ++ '\n' :: (mid ++ '\n' :: l2)) =
      l1 ++ '\n' :: (mid ++ '\n' :: l2) := by
  unfold inlineSub
  have hlen : (l1 ++ '\n' :: (mid ++ '\n' :: l2)).length =
      l1.length + ((mid.length + ((l2.length + 1) + 0)) + 1) := by
    simp only [List.length_append, List.length_cons]
    try omega
  rw [hlen]
  rw [inlineSubFuel_seg (w :: ws) l1 _ _
    (noInlineIn_true w ws l1 _ hw hnlw hl1occ (Or.inr ⟨_, rfl⟩))]
  congr 1
  rw [inlineSubFuel_no (w :: ws) '\n' _ _ (matchInlineAt_nl w ws _ hw hnlw)]
  congr 1
  obtain ⟨c, m2, rfl⟩ : ∃ c m2, mid = c :: m2 := by
    cases mid with
    | nil => exact absurd rfl hmidne
    | cons a b => exact ⟨a, b, rfl⟩
  rw [List.cons_append] at hmid ⊢
  have hfc : (c :: m2).length + ((l2.length + 1) + 0) = ((l2.length + m2.length) + 1) + 1 := by
    simp only [List.length_cons]; omega
  rw [hfc, inlineSubFuel_hit (w :: ws) c _ (c :: m2) ('\n' :: l2) _ hmid]
  rw [List.cons_append]
  congr 1
  congr 1
  rw [inlineSubFuel_no (w :: ws) '\n' l2 _ (matchInlineAt_nl w ws l2 hw hnlw)]
  congr 1
  exact inlineSubFuel_end (w :: ws) l2 m2.length
    (noInlineIn_true w ws l2 [] hw hnlw hl2occ (Or.inl rfl))

/-- C1 counterexample: a mid-line occurrence of `Token: abc` embedded inside a
longer line is NOT redacted — the inline fallback patterns cover only the
Password, Password Token and Wrap token labels, not the bare Token label,
and the line-anchored Token pattern requires a line-start match. -/
theorem redact_token_midline_counterexample :
    redact_sensitive "See Token: abc for access" = "See Token: abc for access" := by
  decide

/-- C1 (amended): for input made of a `Password: secret123` line surrounded by
one line on each side in which no redaction label word (password / token /
wrap) occurs and whose first line is not whitespace-only, `redact_sensitive`
replaces the value on that line with the fixed marker and leaves the other
lines byte-identical; a mid-line `Password: hunter2` occurrence is also
redacted by the inline fallback (unlike a bare mid-line `Token: abc`, see the
counterexample); and since Python `\s` matches `\n`, an anchored match may
cross line breaks: on `"Password:\nPassword: secret123\nx"` the first
pattern's `\s*` consumes the line break and the whole second line is the
matched value, yielding `"Password:\n[REDACTED]\nx"`. -/
theorem redact_sensitive_amended :
    (∀ l1 l2 : List Char,
      '\n' ∉ l1 → '\n' ∉ l2 →
      l1.dropWhile isPySpace ≠ [] →
      containsL "password".toList (l1.map Char.toLower) = false →
      containsL "token".toList (l1.map Char.toLower) = false →
      containsL "wrap".toList (l1.map Char.toLower) = false →
      containsL "password".toList (l2.map Char.toLower) = false →
      containsL "token".toList (l2.map Char.toLower) = false →
      containsL "wrap".toList (l2.map Char.toLower) = false →
      redact_sensitive (l1 ++ '\n' :: ("Password: secret123".toList ++ '\n' :: l2)).asString =
        (l1 ++ '\n' :: ("Password: [REDACTED]".toList ++ '\n' :: l2)).asString) ∧
    redact_sensitive "foo Password: hunter2 bar" = "foo Password: [REDACTED] bar" ∧
    redact_sensitive "Password:\nPassword: secret123\nx" = "Password:\n[REDACTED]\nx" := by
  refine ⟨?_, by decide, by decide⟩
  intro l1 l2 hnl1 hnl2 hld h1p h1t h1w h2p h2t h2w
  have hne : (l1 ++ '\n' :: ("Password: secret123".toList ++ '\n' :: l2)).asString ≠ "" := by
    intro h0
    have h3 : l1 ++ '\n' :: ("Password: secret123".toList ++ '\n' :: l2) = ([] : List Char) :=
      congrArg String.toList h0
    simp at h3
  unfold redact_sensitive
  rw [if_neg hne]
  have htl : ((l1 ++ '\n' :: ("Password: secret123".toList ++ '\n' :: l2)).asString).toList =
      l1 ++ '\n' :: ("Password: secret123".toList ++ '\n' :: l2) := rfl
  rw [htl]
  simp only [pwWords, pwTokWords, wrapTokWords, tokWords]
  rw [anchoredSub_ctx_hit "password".toList [] l1 "Password: secret123".toList
    "Password: [REDACTED]".toList l2 (by decide) (by decide) hnl1 hld h1p hnl2 h2p
    (by decide) rfl]
  rw [anchoredSub_ctx_id "password".toList ["token".toList] l1
    "Password: [REDACTED]".toList l2 (by decide) (by decide) hnl1 hld h1p hnl2 h2p
    (by decide) (by decide) rfl]
  rw [anchoredSub_ctx_id "wrap".toList ["token".toList] l1
    "Password: [REDACTED]".toList l2 (by decide) (by decide) hnl1 hld h1w hnl2 h2w
    (by decide) (by decide) rfl]
  rw [anchoredSub_ctx_id "token".toList [] l1
    "Password: [REDACTED]".toList l2 (by decide) (by decide) hnl1 hld h1t hnl2 h2t
    (by decide) (by decide) rfl]
  rw [inlineSub_ctx_hit "password".toList [] l1 "Password: [REDACTED]".toList l2
    (by decide) (by decide) h1p h2p (by decide) rfl]
  rw [inlineSub_ctx_id "password".toList ["token".toList] l1 "Password: [REDACTED]".toList l2
    (by decide) (by decide) h1p h2p rfl]
  rw [inlineSub_ctx_id "wrap".toList ["token".toList] l1 "Password: [REDACTED]".toList l2
    (by decide) (by decide) h1w h2w rfl]

theorem redact_sensitive_amended_witness :
    redact_sensitive
        ("intro line".toList ++ '\n' :: ("Password: secret123".toList ++ '\n' ::
          "closing line".toList)).asString =
      ("intro line".toList ++ '\n' :: ("Password: [REDACTED]".toList ++ '\n' ::
        "closing line".toList)).asString :=
  redact_sensitive_amended.1 "intro line".toList "closing line".toList
    (by decide) (by decide) (by decide) (by decide) (by decide) (by decide)
    (by decide) (by decide) (by decide)

/-! ## Atomic session persistence (`atomic_write_storage_state`, src 178-186)

The source performs exactly two filesystem effects: it writes the full new
session state to a temporary path (`context.storage_state(path=tmp)`), then
renames the temporary file over the destination (`tmp.replace(state_path)`),
which is atomic.  The destination is modelled as a file whose content changes
only at the rename; the temp write is modelled byte by byte so that an
interruption at any intermediate point is an observable trace state. -/

/-- On-disk state: contents of the destination session-blob file and of the
temporary file (`none` means absent). -/
structure DiskState where
  dest : Option (List Nat)
  tmp : Option (List Nat)
deriving DecidableEq

/-- Every disk state reachable while `atomic_write_storage_state` runs, in
order: initial state, the temp file growing one byte at a time with the
destination untouched, and the state after the final rename. -/
def atomic_write_storage_state_trace (old : Option (List Nat)) (newBlob : List Nat) :
    List DiskState :=
  ⟨old, none⟩ ::
    (((List.range (newBlob.length + 1)).map fun k =>
        (⟨old, some (newBlob.take k)⟩ : DiskState)) ++ [⟨some newBlob, none⟩])

/-- C2: at every point of `atomic_write_storage_state` — including an
interruption anywhere between the temp write and the rename — the destination
session blob is either the previous blob or the complete new blob, and after
the final step it is the complete new blob. -/
theorem atomic_write_storage_state_atomic (old : Option (List Nat)) (newBlob : List Nat) :
    (∀ st ∈ atomic_write_storage_state_trace old newBlob,
      st.dest = old ∨ st.dest = some newBlob) ∧
    (atomic_write_storage_state_trace old newBlob).getLast? =
      some ⟨some newBlob, none⟩ := by
  constructor
  · intro st hst
    unfold atomic_write_storage_state_trace at hst
    rcases List.mem_cons.1 hst with h | h
    · subst h; exact Or.inl rfl
    · rcases List.mem_append.1 h with h | h
      · obtain ⟨k, _, hk⟩ := List.mem_map.1 h
        subst hk; exact Or.inl rfl
      · simp only [List.mem_singleton] at h
        subst h; exact Or.inr rfl
  · unfold atomic_write_storage_state_trace
    rw [← List.cons_append, List.getLast?_concat]

theorem atomic_write_storage_state_atomic_witness :
    ((⟨some [1, 2], some [3]⟩ : DiskState) ∈
      atomic_write_storage_state_trace (some [1, 2]) [3, 4]) ∧
    ((⟨some [1, 2], some [3]⟩ : DiskState).dest = some [1, 2] ∨
      (⟨some [1, 2], some [3]⟩ : DiskState).dest = some [3, 4]) :=
  ⟨by decide,
   (atomic_write_storage_state_atomic (some [1, 2]) [3, 4]).1 _ (by decide)⟩

/-! ## Subject extraction (`extract_subject`, src 940-949) -/

/-- Python `str.splitlines()` for the `\n`/`\r\n`/`\r` terminators: lines
between terminators, no trailing empty line, and the empty string gives no
lines (handled in `pySplitlines`). -/
def splitlinesAux (acc : List Char) : List Char → List (List Char)
  | [] => [acc.reverse]
  | '\n' :: rest =>
    acc.reverse ::
      (match rest with
       | [] => []
       | r => splitlinesAux [] r)
  | c :: rest => splitlinesAux (c :: acc) rest

def pySplitlines (cs : List Char) : List (List Char) :=
  match normNl cs with
  | [] => []
  | c :: rest => splitlinesAux [] (c :: rest)

/-- The stripped lines of a block as `extract_subject` sees them:
`[l.strip() for l in block.splitlines()]`. -/
def subjectLines (block : String) : List (List Char) :=
  (pySplitlines block.toList).map pyStrip

/-- The scan of `extract_subject`: at each line equal (case-folded) to
"subject", return the first non-blank among the next 11 lines — the source's
`range(i + 1, min(i + 12, len(lines)))` — otherwise continue at the next
line. -/
def subject_scan : List (List Char) → List Char
  | [] => []
  | l :: rest =>
    if l.map Char.toLower = "subject".toList then
      match (rest.take 11).find? (fun s => !s.isEmpty) with
      | some v => v
      | none => subject_scan rest
    else subject_scan rest

/-- Embedding of `extract_subject(block)`. -/
def extract_subject (block : String) : String :=
  if block = "" then "" else (subject_scan (subjectLines block)).asString

theorem subject_scan_skip (pre ls : List (List Char))
    (h : ∀ l ∈ pre, l.map Char.toLower ≠ "subject".toList) :
    subject_scan (pre ++ ls) = subject_scan ls := by
  induction pre with
  | nil => rfl
  | cons p pre ih =>
    have hp : p.map Char.toLower ≠ "subject".toList := h p (List.mem_cons_self p pre)
    show subject_scan (p :: (pre ++ ls)) = subject_scan ls
    simp only [subject_scan]
    rw [if_neg hp]
    exact ih (fun l hl => h l (List.mem_cons_of_mem p hl))

/-- C6 counterexample: with eleven blank lines after "Subject" and the first
non-blank line exactly twelve lines below it, `extract_subject` returns the
empty string although that non-blank line lies within the 12 following lines
claimed by the specification (the source scans `range(i+1, min(i+12, n))`,
i.e. only 11 following lines). -/
theorem extract_subject_window_counterexample :
    extract_subject "Subject\n\n\n\n\n\n\n\n\n\n\n\nHELLO" = "" ∧
    (subjectLines "Subject\n\n\n\n\n\n\n\n\n\n\n\nHELLO").head? = some "Subject".toList ∧
    (((subjectLines "Subject\n\n\n\n\n\n\n\n\n\n\n\nHELLO").drop 1).take 12).find?
        (fun s => !s.isEmpty) = some "HELLO".toList := by
  refine ⟨by decide, by decide, by decide⟩

/-- C6 (amended): for every block, the first line that case-folds to
"subject" and is followed by a non-blank line within its next ELEVEN lines
determines the result (the source's `range(i+1, min(i+12, len(lines)))`
inspects 11 following lines, not 12); when no line case-folds to "subject"
the result is the empty string. -/
theorem extract_subject_amended :
    (∀ (block : String) (pre rest : List (List Char)) (subj : List Char),
      block ≠ "" →
      subjectLines block = pre ++ subj :: rest →
      (∀ l ∈ pre, l.map Char.toLower ≠ "subject".toList) →
      subj.map Char.toLower = "subject".toList →
      ∀ v, (rest.take 11).find? (fun s => !s.isEmpty) = some v →
        extract_subject block = v.asString) ∧
    (∀ block : String,
      (∀ l ∈ subjectLines block, l.map Char.toLower ≠ "subject".toList) →
      extract_subject block = "") := by
  constructor
  · intro block pre rest subj hb hlines hpre hsubj v hfind
    unfold extract_subject
    rw [if_neg hb, hlines, subject_scan_skip pre (subj :: rest) hpre]
    simp only [subject_scan]
    rw [if_pos hsubj, hfind]
  · intro block h
    by_cases hb : block = ""
    · simp [extract_subject, hb]
    · unfold extract_subject
      rw [if_neg hb, ← List.append_nil (subjectLines block),
        subject_scan_skip (subjectLines block) [] h]
      rfl

theorem extract_subject_amended_witness :
    extract_subject "Subject\nHello" = "Hello" := by
  have h := extract_subject_amended.1 "Subject\nHello" [] ["Hello".toList]
    "Subject".toList (by decide) (by decide) (by decide) (by decide)
    "Hello".toList (by decide)
  exact h

/-! ## Field Extractor (`parse_line_pairs`, src 50-61 and 879-924) -/

/-- `FIELD_LABELS`: normalized key -> acceptable UI label spellings. -/
def FIELD_LABELS : List (String × List String) :=
  [("status", ["Status", "Case Status"]),
   ("severity", ["Severity"]),
   ("product", ["Product"]),
   ("serial", ["Serial Number", "Serial number", "Serial"]),
   ("product_no", ["Product Number", "Product number"]),
   ("group", ["Group"]),
   ("nickname", ["Nickname"]),
   ("case_no", ["Case", "Case:", "Case Number", "Case number"])]

/-- The `label_map`: lower(label) -> field key, in source build order (all
lowered labels are distinct, so association-list lookup models the dict). -/
def label_map : List (String × String) :=
  FIELD_LABELS.flatMap (fun kv => kv.2.map (fun lbl => (strLower lbl, kv.1)))

/-- `[ln.strip() for ln in text.replace("\r\n","\n").replace("\r","\n").split("\n")]`. -/
def plpLines (text : String) : List String :=
  (splitNl (normNl text.toList)).map (fun l => (pyStrip l).asString)

/-- Split at the first colon, Python `ln.split(":", 1)` when `":" in ln`. -/
def splitColon1 : List Char → Option (List Char × List Char)
  | [] => none
  | ':' :: rest => some ([], rest)
  | c :: rest =>
    match splitColon1 rest with
    | none => none
    | some (l, r) => some (c :: l, r)

/-- The same-line `"Label: value"` resolution attempt of one line. -/
def plpAttempt1 (ln : String) : List (String × String) :=
  match splitColon1 ln.toList with
  | none => []
  | some (left, right) =>
    match label_map.lookup (strLower (pyStrip left).asString) with
    | none => []
    | some k =>
      if (pyStrip right).asString ≠ "" then [(k, (pyStrip right).asString)] else []

/-- The next non-empty line, Python `while j < len(lines) and not lines[j]`. -/
def plpNextVal : List String → Option String
  | [] => none
  | "" :: rest => plpNextVal rest
  | v :: _ => some v

/-- The label-line-followed-by-value resolution attempt of one line. -/
def plpAttempt2 (ln : String) (rest : List String) : List (String × String) :=
  match label_map.lookup (strLower ln) with
  | none => []
  | some key =>
    match plpNextVal rest with
    | none => []
    | some val =>
      if val = "-" || val = "â€”" then []
      else if (label_map.lookup (strLower val)).isSome then []
      else [(key, val)]

/-- `out.setdefault(k, v)` on an association list. -/
def plpSetdefault (out : List (String × String)) (k v : String) : List (String × String) :=
  if (out.lookup k).isSome then out else out ++ [(k, v)]

/-- The (at most two) resolution attempts of one non-empty line, in source
order: same-line pair first, then label-line/next-value. -/
def plpLineAttempts (ln : String) (rest : List String) : List (String × String) :=
  plpAttempt1 ln ++ plpAttempt2 ln rest

def plpApply (out atts : List (String × String)) : List (String × String) :=
  atts.foldl (fun o kv => plpSetdefault o kv.1 kv.2) out

/-- The line loop of `parse_line_pairs`. -/
def plp_loop : List String → List (String × String) → List (String × String)
  | [], out => out
  | ln :: rest, out =>
    if ln = "" then plp_loop rest out
    else plp_loop rest (plpApply out (plpLineAttempts ln rest))

/-- Embedding of `parse_line_pairs(text)` as an association list (dict with
insertion order; `lookup` models `dict.get`). -/
def parse_line_pairs (text : String) : List (String × String) :=
  if text = "" then [] else plp_loop (plpLines text) []

/-- All resolution attempts of the panel text, in line order: the earliest
attempt for a key is the one `set-if-absent` semantics will keep. -/
def plp_attempts : List String → List (String × String)
  | [] => []
  | ln :: rest =>
    if ln = "" then plp_attempts rest
    else plpLineAttempts ln rest ++ plp_attempts rest

/-- First-some choice on options (Python `a if a is not None else b`). -/
def oor {α : Type} : Option α → Option α → Option α
  | some v, _ => some v
  | none, y => y

theorem oor_none_right {α : Type} (x : Option α) : oor x none = x := by
  cases x <;> rfl

theorem oor_assoc {α : Type} (x y z : Option α) :
    oor (oor x y) z = oor x (oor y z) := by
  cases x <;> rfl

theorem lookup_append_oor (l1 l2 : List (String × String)) (k : String) :
    (l1 ++ l2).lookup k = oor (l1.lookup k) (l2.lookup k) := by
  induction l1 with
  | nil => rfl
  | cons p l1 ih =>
    obtain ⟨a, b⟩ := p
    show ((a, b) :: (l1 ++ l2)).lookup k = oor (((a, b) :: l1).lookup k) (l2.lookup k)
    simp only [List.lookup]
    by_cases h : k == a
    · rw [h]; rfl
    · rw [Bool.not_eq_true] at h
      rw [h]
      exact ih

theorem lookup_plpSetdefault (out : List (String × String)) (k v k' : String) :
    (plpSetdefault out k v).lookup k' =
      oor (out.lookup k') (if k' == k then some v else none) := by
  unfold plpSetdefault
  by_cases h : (out.lookup k).isSome
  · rw [if_pos h]
    cases hk : out.lookup k' with
    | some w => rfl
    | none =>
      by_cases he : k' = k
      · subst he; rw [hk] at h; simp at h
      · simp only [oor, beq_iff_eq, if_neg he]
  · rw [if_neg h, lookup_append_oor]
    congr 1
    show List.lookup k' [(k, v)] = _
    simp only [List.lookup]
    cases he : (k' == k) <;> simp [he]

theorem lookup_plpApply (atts out : List (String × String)) (k : String) :
    (plpApply out atts).lookup k = oor (out.lookup k) (atts.lookup k) := by
  induction atts generalizing out with
  | nil => exact (oor_none_right _).symm
  | cons kv atts ih =>
    obtain ⟨a, b⟩ := kv
    show (plpApply (plpSetdefault out a b) atts).lookup k = _
    rw [ih, lookup_plpSetdefault]
    show _ = oor (out.lookup k) (((a, b) :: atts).lookup k)
    have hc : ((a, b) :: atts).lookup k =
        oor (if k == a then some b else none) (atts.lookup k) := by
      simp only [List.lookup]
      cases he : (k == a) <;> simp [he, oor]
    rw [hc, oor_assoc]

theorem plp_loop_lookup (ls : List String) (out : List (String × String)) (k : String) :
    (plp_loop ls out).lookup k = oor (out.lookup k) ((plp_attempts ls).lookup k) := by
  induction ls generalizing out with
  | nil => exact (oor_none_right _).symm
  | cons ln rest ih =>
    by_cases h : ln = ""
    · show (if ln = "" then plp_loop rest out else _).lookup k =
        oor (out.lookup k) ((if ln = "" then plp_attempts rest else _).lookup k)
      rw [if_pos h, if_pos h, ih]
    · show (if ln = "" then _ else plp_loop rest (plpApply out (plpLineAttempts ln rest))).lookup k =
        oor (out.lookup k)
          ((if ln = "" then _ else plpLineAttempts ln rest ++ plp_attempts rest).lookup k)
      rw [if_neg h, if_neg h, ih, lookup_plpApply, lookup_append_oor, oor_assoc]

/-- C9: `parse_line_pairs` has set-if-absent (first-occurrence-wins)
semantics — for every field key, the parsed map holds exactly the value of
the earliest resolution attempt of that key in line order (same-line
`Label: value` pairs and label-line/next-non-blank-non-label-line pairs, in
the source's per-line order); every later occurrence is ignored. -/
theorem parse_line_pairs_first_wins (text : String) (k : String) :
    (parse_line_pairs text).lookup k = (plp_attempts (plpLines text)).lookup k := by
  unfold parse_line_pairs
  by_cases h : text = ""
  · subst h
    rfl
  · rw [if_neg h, plp_loop_lookup]
    rfl

/-! ## Case Enumerator (`collect_case_numbers`, src 1355-1429)

The page interaction (scrolling, locator queries) is external; what the
function contributes is the round-bounded scan loop.  Each of the up to 15
rounds observes a list of text snippets; per snippet the configured
identifier regex search either yields a case number or nothing, which is
modelled by the caller-supplied `extract` function.  The loop deduplicates
against `seen`, appends to `found` in first-seen order and returns as soon as
`found` reaches a positive `max_cases`. -/

/-- Enumerator state: the ordered result `found`, the `seen` set (modelled as
a list with the same elements), and whether the early return has fired. -/
structure CollectSt where
  found : List String
  seen : List String
  done : Bool

/-- Processing of one observed text snippet. -/
def collectText (extract : String → Option String) (max_cases : Int)
    (st : CollectSt) (t : String) : CollectSt :=
  if st.done then st
  else
    match extract t with
    | none => st
    | some cn =>
      if st.seen.contains cn then st
      else
        if max_cases > 0 ∧ max_cases ≤ ((st.found ++ [cn]).length : Int) then
          ⟨st.found ++ [cn], st.seen ++ [cn], true⟩
        else ⟨st.found ++ [cn], st.seen ++ [cn], false⟩

/-- One scan round over the texts observed in that round. -/
def collectRound (extract : String → Option String) (max_cases : Int)
    (st : CollectSt) (texts : List String) : CollectSt :=
  texts.foldl (collectText extract max_cases) st

/-- Embedding of `collect_case_numbers`: up to 15 scan rounds (`for _ in
range(15)`), starting from an empty result. -/
def collect_case_numbers (extract : String → Option String)
    (rounds : List (List String)) (max_cases : Int) : List String :=
  ((rounds.take 15).foldl (collectRound extract max_cases) ⟨[], [], false⟩).found

/-- First-seen-order deduplication, starting from an already collected
prefix. -/
def dedupFSFrom (acc : List String) (xs : List String) : List String :=
  xs.foldl (fun a x => if a.contains x then a else a ++ [x]) acc

/-- First-seen-order deduplication of a stream of identifiers. -/
def dedupFirstSeen (xs : List String) : List String := dedupFSFrom [] xs

/-- The caller-supplied maximum: positive values truncate, others disable. -/
def applyLimit (max_cases : Int) (l : List String) : List String :=
  if max_cases > 0 then l.take max_cases.toNat else l

theorem dedupFSFrom_prefix (xs : List String) :
    ∀ acc, ∃ ext, dedupFSFrom acc xs = acc ++ ext := by
  induction xs with
  | nil => intro acc; exact ⟨[], (List.append_nil acc).symm⟩
  | cons x xs ih =>
    intro acc
    show ∃ ext, dedupFSFrom (if acc.contains x then acc else acc ++ [x]) xs = acc ++ ext
    by_cases h : acc.contains x
    · rw [if_pos h]; exact ih acc
    · rw [if_neg h]
      obtain ⟨ext, he⟩ := ih (acc ++ [x])
      exact ⟨x :: ext, by rw [he, List.append_assoc]; rfl⟩

theorem dedupFSFrom_nodup (xs : List String) :
    ∀ acc, acc.Nodup → (dedupFSFrom acc xs).Nodup := by
  induction xs with
  | nil => intro acc h; exact h
  | cons x xs ih =>
    intro acc h
    show (dedupFSFrom (if acc.contains x then acc else acc ++ [x]) xs).Nodup
    by_cases hc : acc.contains x
    · rw [if_pos hc]; exact ih acc h
    · rw [if_neg hc]
      refine ih (acc ++ [x]) ?_
      have hx : x ∉ acc := by
        simpa using hc
      simp [List.nodup_append, h, hx]

/-- The consistency invariant of the enumerator state. -/
def stOK (max_cases : Int) (st : CollectSt) : Prop :=
  st.seen = st.found ∧
  (max_cases > 0 → (st.found.length : Int) ≤ max_cases) ∧
  (st.done = true ↔ (max_cases > 0 ∧ max_cases ≤ (st.found.length : Int)))

theorem collect_done_frozen (e : String → Option String) (m : Int) :
    ∀ (ts : List String) (st : CollectSt), st.done = true →
      ts.foldl (collectText e m) st = st := by
  intro ts
  induction ts with
  | nil => intro st _; rfl
  | cons t ts ih =>
    intro st h
    show ts.foldl (collectText e m) (collectText e m st t) = st
    rw [show collectText e m st t = st by unfold collectText; rw [h]; rfl]
    exact ih st h

theorem foldl_collectText_found (e : String → Option String) (m : Int) :
    ∀ (ts : List String) (st : CollectSt), stOK m st →
      (ts.foldl (collectText e m) st).found =
        applyLimit m (dedupFSFrom st.found (ts.filterMap e)) ∧
      stOK m (ts.foldl (collectText e m) st) := by
  intro ts
  induction ts with
  | nil =>
    intro st hok
    refine ⟨?_, hok⟩
    show st.found = applyLimit m st.found
    unfold applyLimit
    by_cases hm : m > 0
    · rw [if_pos hm, List.take_of_length_le (by have := hok.2.1 hm; omega)]
    · rw [if_neg hm]
  | cons t ts ih =>
    intro st hok
    by_cases hd : st.done = true
    · have hfrozen : (t :: ts).foldl (collectText e m) st = st :=
        collect_done_frozen e m (t :: ts) st hd
      rw [hfrozen]
      refine ⟨?_, hok⟩
      obtain ⟨hm, hlen⟩ := hok.2.2.1 hd
      obtain ⟨ext, hext⟩ := dedupFSFrom_prefix ((t :: ts).filterMap e) st.found
      rw [hext]
      unfold applyLimit
      rw [if_pos hm]
      have hlen2 : m.toNat = st.found.length := by have := hok.2.1 hm; omega
      rw [hlen2, List.take_left]
    · have hd2 : st.done = false := by revert hd; cases st.done <;> simp
      show (ts.foldl (collectText e m) (collectText e m st t)).found = _ ∧
        stOK m (ts.foldl (collectText e m) (collectText e m st t))
      cases he : e t with
      | none =>
        have hstep : collectText e m st t = st := by
          unfold collectText
          rw [hd2, he]
          rfl
        rw [hstep]
        have hfm : (t :: ts).filterMap e = ts.filterMap e := by
          simp [List.filterMap_cons, he]
        rw [hfm]
        exact ih st hok
      | some cn =>
        have hfm : (t :: ts).filterMap e = cn :: ts.filterMap e := by
          simp [List.filterMap_cons, he]
        cases hc : st.seen.contains cn with
        | true =>
          have hstep : collectText e m st t = st := by
            unfold collectText
            rw [hd2, he]
            show (if st.seen.contains cn = true then st else _) = st
            rw [hc]
            rfl
          rw [hstep, hfm]
          have hcf : st.found.contains cn = true := by
            have hx := hc
            rw [hok.1] at hx
            exact hx
          have hded : dedupFSFrom st.found (cn :: ts.filterMap e) =
              dedupFSFrom st.found (ts.filterMap e) := by
            show dedupFSFrom (if st.found.contains cn then st.found else st.found ++ [cn])
              (ts.filterMap e) = _
            rw [hcf]
            rfl
          rw [hded]
          exact ih st hok
        | false =>
          have hcf : st.found.contains cn = false := by
            have hx := hc
            rw [hok.1] at hx
            exact hx
          have hded : dedupFSFrom st.found (cn :: ts.filterMap e) =
              dedupFSFrom (st.found ++ [cn]) (ts.filterMap e) := by
            show dedupFSFrom (if st.found.contains cn then st.found else st.found ++ [cn])
              (ts.filterMap e) = _
            rw [hcf]
            rfl
          have hnc : ¬(m > 0 ∧ m ≤ (st.found.length : Int)) := by
            intro hcc
            have hcontra := hok.2.2.2 hcc
            rw [hd2] at hcontra
            cases hcontra
          by_cases hcond : m > 0 ∧ m ≤ ((st.found ++ [cn]).length : Int)
          · have hstep : collectText e m st t =
                ⟨st.found ++ [cn], st.seen ++ [cn], true⟩ := by
              unfold collectText
              rw [hd2, he]
              show (if st.seen.contains cn = true then st else _) = _
              rw [hc]
              show (if m > 0 ∧ m ≤ ((st.found ++ [cn]).length : Int) then
                  (⟨st.found ++ [cn], st.seen ++ [cn], true⟩ : CollectSt)
                else ⟨st.found ++ [cn], st.seen ++ [cn], false⟩) = _
              rw [if_pos hcond]
            rw [hstep, hfm, hded]
            have hok1 : stOK m (⟨st.found ++ [cn], st.seen ++ [cn], true⟩ : CollectSt) := by
              refine ⟨by show st.seen ++ [cn] = st.found ++ [cn]; rw [hok.1], fun hm => ?_, ?_⟩
              · show (((st.found ++ [cn]).length : Nat) : Int) ≤ m
                simp only [List.length_append, List.length_cons, List.length_nil]
                omega
              · exact ⟨fun _ => hcond, fun _ => rfl⟩
            exact ih _ hok1
          · have hstep : collectText e m st t =
                ⟨st.found ++ [cn], st.seen ++ [cn], false⟩ := by
              unfold collectText
              rw [hd2, he]
              show (if st.seen.contains cn = true then st else _) = _
              rw [hc]
              show (if m > 0 ∧ m ≤ ((st.found ++ [cn]).length : Int) then
                  (⟨st.found ++ [cn], st.seen ++ [cn], true⟩ : CollectSt)
                else ⟨st.found ++ [cn], st.seen ++ [cn], false⟩) = _
              rw [if_neg hcond]
            rw [hstep, hfm, hded]
            have hok1 : stOK m (⟨st.found ++ [cn], st.seen ++ [cn], false⟩ : CollectSt) := by
              refine ⟨by show st.seen ++ [cn] = st.found ++ [cn]; rw [hok.1], fun hm => ?_, ?_⟩
              · show (((st.found ++ [cn]).length : Nat) : Int) ≤ m
                simp only [List.length_append, List.length_cons, List.length_nil]
                omega
              · constructor
                · intro hfalse; cases hfalse
                · intro hcc; exact absurd hcc hcond
            exact ih _ hok1

theorem collectRounds_eq_flatten (e : String → Option String) (m : Int) :
    ∀ (rs : List (List String)) (st : CollectSt),
      rs.foldl (collectRound e m) st = (rs.flatten).foldl (collectText e m) st := by
  intro rs
  induction rs with
  | nil => intro st; rfl
  | cons r rs ih =>
    intro st
    show rs.foldl (collectRound e m) (collectRound e m st r) =
      ((r :: rs).flatten).foldl (collectText e m) st
    rw [ih, List.flatten_cons, List.foldl_append]
    rfl

/-- C8: the enumerator's result is exactly the first-seen-order deduplication
of the identifiers observed across the (at most 15) scan rounds, truncated at
the caller-supplied maximum when it is positive — so `[A, B, A, C]` yields
`[A, B, C]`, each identifier occurs at most once, and collection stops as
soon as the maximum is reached.  Since the rounds are universally
quantified, this holds as an invariant of every iteration of the
round-bounded scan loop. -/
theorem collect_case_numbers_spec (extract : String → Option String)
    (rounds : List (List String)) (max_cases : Int) :
    collect_case_numbers extract rounds max_cases =
      applyLimit max_cases
        (dedupFirstSeen (((rounds.take 15).flatten).filterMap extract)) ∧
    (collect_case_numbers extract rounds max_cases).Nodup := by
  have h0 : stOK max_cases ⟨[], [], false⟩ := by
    refine ⟨rfl, fun hm => by simp only [List.length_nil, Nat.cast_zero]; omega, ?_⟩
    constructor
    · intro hfalse; cases hfalse
    · rintro ⟨hm, hle⟩
      exfalso
      simp only [List.length_nil, Nat.cast_zero] at hle
      omega
  have heq : collect_case_numbers extract rounds max_cases =
      applyLimit max_cases (dedupFirstSeen (((rounds.take 15).flatten).filterMap extract)) := by
    unfold collect_case_numbers
    rw [collectRounds_eq_flatten]
    exact (foldl_collectText_found extract max_cases _ _ h0).1
  refine ⟨heq, ?_⟩
  rw [heq]
  have hnd : (dedupFirstSeen (((rounds.take 15).flatten).filterMap extract)).Nodup :=
    dedupFSFrom_nodup _ [] List.nodup_nil
  unfold applyLimit
  by_cases hm : max_cases > 0
  · rw [if_pos hm]
    exact hnd.sublist (List.take_sublist _ _)
  · rw [if_neg hm]
    exact hnd

/-! ## Timestamp parsing (`parse_ts`, src 951-957)

`datetime.strptime` with the formats `"%b %d, %Y, %I:%M %p"` and
`"%b %d, %Y %I:%M %p"`: case-insensitive month abbreviation, 1-2 digit day
in 1..31, 4-digit year, 1-2 digit hour in 1..12, 1-2 digit minute in 0..59,
AM/PM, with whitespace in the format matching one-or-more whitespace, the
match anchored at both ends of the stripped string, and `datetime(...)`
validating year ≥ 1, month 1..12 and the day against the month length.
Every numeric field is followed by a non-digit piece of the format, so the
field always consumes a whole maximal digit run.  The parsed datetime is
encoded as a `Nat` that orders exactly like lexicographic
(year, month, day, hour24, minute). -/

def monthAbbrevs : List (List Char × Nat) :=
  [("jan".toList, 1), ("feb".toList, 2), ("mar".toList, 3), ("apr".toList, 4),
   ("may".toList, 5), ("jun".toList, 6), ("jul".toList, 7), ("aug".toList, 8),
   ("sep".toList, 9), ("oct".toList, 10), ("nov".toList, 11), ("dec".toList, 12)]

def matchMonthAux : List (List Char × Nat) → List Char → Option (Nat × List Char)
  | [], _ => none
  | (ab, n) :: rest, cs =>
    match matchCIKeep ab cs with
    | some (_, r) => some (n, r)
    | none => matchMonthAux rest cs

/-- strptime `%b`: case-insensitive month abbreviation. -/
def matchMonth (cs : List Char) : Option (Nat × List Char) :=
  matchMonthAux monthAbbrevs cs

/-- Whitespace in a strptime format: one-or-more whitespace characters. -/
def skipWs1 : List Char → Option (List Char)
  | [] => none
  | c :: rest => if isPySpace c then some (rest.dropWhile isPySpace) else none

def digitsVal (ds : List Char) : Nat :=
  ds.foldl (fun a c => a * 10 + (c.toNat - 48)) 0

/-- A 1-2 digit numeric field with value bounds (`%d`, `%I`, `%M`). -/
def numField (lo hi : Nat) (cs : List Char) : Option (Nat × List Char) :=
  let ds := cs.takeWhile Char.isDigit
  if ds.length = 1 ∨ ds.length = 2 then
    let v := digitsVal ds
    if lo ≤ v ∧ v ≤ hi then some (v, cs.dropWhile Char.isDigit) else none
  else none

/-- strptime `%Y`: exactly four digits. -/
def yearField (cs : List Char) : Option (Nat × List Char) :=
  let ds := cs.takeWhile Char.isDigit
  if ds.length = 4 then some (digitsVal ds, cs.dropWhile Char.isDigit) else none

/-- strptime `%p`: AM or PM, case-insensitive (`true` = PM). -/
def ampmField (cs : List Char) : Option (Bool × List Char) :=
  match matchCIKeep "am".toList cs with
  | some (_, r) => some (false, r)
  | none =>
    match matchCIKeep "pm".toList cs with
    | some (_, r) => some (true, r)
    | none => none

def expectComma : List Char → Option (List Char)
  | ',' :: rest => some rest
  | _ => none

def expectColon : List Char → Option (List Char)
  | ':' :: rest => some rest
  | _ => none

/-- Field extraction of one format; `commaAfterYear` selects
`"%b %d, %Y, %I:%M %p"` over `"%b %d, %Y %I:%M %p"`.  Returns
(year, month, day, hour12, minute, pm). -/
def parseTsRaw (commaAfterYear : Bool) (cs : List Char) :
    Option (Nat × Nat × Nat × Nat × Nat × Bool) := do
  let (mo, r1) ← matchMonth cs
  let r2 ← skipWs1 r1
  let (d, r3) ← numField 1 31 r2
  let r4 ← expectComma r3
  let r5 ← skipWs1 r4
  let (y, r6) ← yearField r5
  let r8 ← if commaAfterYear then
             match expectComma r6 with
             | some r7 => skipWs1 r7
             | none => none
           else skipWs1 r6
  let (h, r9) ← numField 1 12 r8
  let r10 ← expectColon r9
  let (mi, r11) ← numField 0 59 r10
  let r12 ← skipWs1 r11
  let (pm, r13) ← ampmField r12
  if r13 = [] then some (y, mo, d, h, mi, pm) else none

def isLeap (y : Nat) : Bool := (y % 4 = 0) && (y % 100 ≠ 0 || y % 400 = 0)

def daysInMonth (y mo : Nat) : Nat :=
  if mo = 2 then (if isLeap y then 29 else 28)
  else if mo = 4 ∨ mo = 6 ∨ mo = 9 ∨ mo = 11 then 30 else 31

/-- Order-preserving encoding of (year, month, day, hour24, minute). -/
def encDT (y mo d h mi : Nat) : Nat :=
  (((y * 13 + mo) * 32 + d) * 24 + h) * 60 + mi

/-- `datetime(y, mo, d, h, mi)` construction incl. the 12h -> 24h conversion
of strptime and the constructor's range validation. -/
def mkDateTime (y mo d h12 mi : Nat) (pm : Bool) : Option Nat :=
  let h24 := if pm then (if h12 = 12 then 12 else h12 + 12)
             else (if h12 = 12 then 0 else h12)
  if 1 ≤ y ∧ 1 ≤ mo ∧ mo ≤ 12 ∧ 1 ≤ d ∧ d ≤ daysInMonth y mo then
    some (encDT y mo d h24 mi)
  else none

def parseTsFmt (commaAfterYear : Bool) (cs : List Char) : Option Nat :=
  match parseTsRaw commaAfterYear cs with
  | none => none
  | some (y, mo, d, h, mi, pm) => mkDateTime y mo d h mi pm

/-- Embedding of `parse_ts(ts)`. -/
def parse_ts (ts : String) : Option Nat :=
  match parseTsFmt true (pyStrip ts.toList) with
  | some v => some v
  | none => parseTsFmt false (pyStrip ts.toList)

/-- The encoding of `datetime.min` (year 1, Jan 1, 00:00). -/
def dtMin : Nat := encDT 1 1 1 0 0

/-! ## Last support message selection (`pick_last_hpe_message`, src 959-980) -/

/-- Code-point lexicographic comparison of character lists — Python string
`<` as used by tuple comparison in `scored.sort()`. -/
def listLtB : List Char → List Char → Bool
  | [], [] => false
  | [], _ :: _ => true
  | _ :: _, [] => false
  | a :: as, b :: bs => if a < b then true else if b < a then false else listLtB as bs

theorem listLtB_irrefl : ∀ l : List Char, listLtB l l = false := by
  intro l
  induction l with
  | nil => rfl
  | cons a as ih =>
    show (if a < a then true else if a < a then false else listLtB as as) = false
    rw [if_neg (lt_irrefl a), if_neg (lt_irrefl a)]
    exact ih

theorem listLtB_trans : ∀ a b c : List Char,
    listLtB a b = true → listLtB b c = true → listLtB a c = true := by
  intro a
  induction a with
  | nil =>
    intro b c hab hbc
    cases b with
    | nil => cases hab
    | cons y bs =>
      cases c with
      | nil => cases hbc
      | cons z cs => rfl
  | cons x as ih =>
    intro b c hab hbc
    cases b with
    | nil => cases hab
    | cons y bs =>
      cases c with
      | nil => cases hbc
      | cons z cs =>
        have hab2 : (if x < y then true else if y < x then false else listLtB as bs) = true := hab
        have hbc2 : (if y < z then true else if z < y then false else listLtB bs cs) = true := hbc
        show (if x < z then true else if z < x then false else listLtB as cs) = true
        by_cases hxy : x < y
        · by_cases hyz : y < z
          · rw [if_pos (lt_trans hxy hyz)]
          · rw [if_neg hyz] at hbc2
            by_cases hzy : z < y
            · rw [if_pos hzy] at hbc2; cases hbc2
            · have hyzeq : y = z := le_antisymm (not_lt.1 hzy) (not_lt.1 hyz)
              rw [if_pos (hyzeq ▸ hxy)]
        · rw [if_neg hxy] at hab2
          by_cases hyx : y < x
          · rw [if_pos hyx] at hab2; cases hab2
          · have hxyeq : x = y := le_antisymm (not_lt.1 hyx) (not_lt.1 hxy)
            rw [if_neg hyx] at hab2
            by_cases hyz : y < z
            · rw [if_pos (hxyeq ▸ hyz)]
            · rw [if_neg hyz] at hbc2
              by_cases hzy : z < y
              · rw [if_pos hzy] at hbc2; cases hbc2
              · have hyzeq : y = z := le_antisymm (not_lt.1 hzy) (not_lt.1 hyz)
                have hxz : ¬ x < z := by rw [hxyeq, hyzeq]; exact lt_irrefl z
                have hzx : ¬ z < x := by rw [hxyeq, hyzeq]; exact lt_irrefl z
                rw [if_neg hxz, if_neg hzx]
                rw [if_neg hzy] at hbc2
                exact ih bs cs hab2 hbc2

theorem listLtB_neg_trans : ∀ a b c : List Char,
    listLtB a b = false → listLtB b c = false → listLtB a c = false := by
  intro a
  induction a with
  | nil =>
    intro b c hab hbc
    cases b with
    | nil =>
      cases c with
      | nil => rfl
      | cons z cs => cases hbc
    | cons y bs => cases hab
  | cons x as ih =>
    intro b c hab hbc
    cases c with
    | nil => rfl
    | cons z cs =>
      cases b with
      | nil => cases hbc
      | cons y bs =>
        have hab2 : (if x < y then true else if y < x then false else listLtB as bs) = false := hab
        have hbc2 : (if y < z then true else if z < y then false else listLtB bs cs) = false := hbc
        show (if x < z then true else if z < x then false else listLtB as cs) = false
        by_cases hxy : x < y
        · rw [if_pos hxy] at hab2; cases hab2
        · by_cases hyz : y < z
          · rw [if_pos hyz] at hbc2; cases hbc2
          · rw [if_neg hxy] at hab2
            rw [if_neg hyz] at hbc2
            by_cases hyx : y < x
            · by_cases hzy : z < y
              · have hzx : z < x := lt_trans hzy hyx
                rw [if_neg (lt_asymm hzx), if_pos hzx]
              · have hyzeq : y = z := le_antisymm (not_lt.1 hzy) (not_lt.1 hyz)
                have hzx : z < x := hyzeq ▸ hyx
                rw [if_neg (lt_asymm hzx), if_pos hzx]
            · have hxyeq : x = y := le_antisymm (not_lt.1 hyx) (not_lt.1 hxy)
              rw [if_neg hyx] at hab2
              by_cases hzy : z < y
              · have hzx : z < x := hxyeq ▸ hzy
                rw [if_neg (lt_asymm hzx), if_pos hzx]
              · have hyzeq : y = z := le_antisymm (not_lt.1 hzy) (not_lt.1 hyz)
                have hxz : ¬ x < z := by rw [hxyeq, hyzeq]; exact lt_irrefl z
                have hzx : ¬ z < x := by rw [hxyeq, hyzeq]; exact lt_irrefl z
                rw [if_neg hxz, if_neg hzx]
                rw [if_neg hzy] at hbc2
                exact ih bs cs hab2 hbc2

/-- Python tuple comparison `(dt, ts, block) < (dt2, ts2, block2)`. -/
def keyLtB (a b : Nat × List Char × List Char) : Bool :=
  if a.1 < b.1 then true
  else if b.1 < a.1 then false
  else if listLtB a.2.1 b.2.1 then true
  else if listLtB b.2.1 a.2.1 then false
  else listLtB a.2.2 b.2.2

theorem keyLtB_iff (a b : Nat × List Char × List Char) : keyLtB a b = true ↔
    (a.1 < b.1 ∨ (a.1 = b.1 ∧ (listLtB a.2.1 b.2.1 = true ∨
      (listLtB a.2.1 b.2.1 = false ∧ listLtB b.2.1 a.2.1 = false ∧
        listLtB a.2.2 b.2.2 = true)))) := by
  unfold keyLtB
  split_ifs with h1 h2 h3 h4 <;> simp_all <;> try omega
  constructor
  · intro hx
    exact Or.inr ⟨by omega, hx⟩
  · rintro (hx | ⟨-, hx⟩)
    · omega
    · exact hx

theorem keyLtB_irrefl (a : Nat × List Char × List Char) : keyLtB a a = false := by
  cases hk : keyLtB a a with
  | false => rfl
  | true =>
    exfalso
    rcases (keyLtB_iff a a).1 hk with h | ⟨-, h | ⟨h1, -, h3⟩⟩
    · omega
    · rw [listLtB_irrefl] at h; cases h
    · rw [listLtB_irrefl] at h3; cases h3

theorem keyLtB_trans {a b c : Nat × List Char × List Char}
    (hab : keyLtB a b = true) (hbc : keyLtB b c = true) : keyLtB a c = true := by
  refine (keyLtB_iff a c).2 ?_
  rcases (keyLtB_iff a b).1 hab with h1 | ⟨e1, h1⟩ <;>
    rcases (keyLtB_iff b c).1 hbc with h2 | ⟨e2, h2⟩
  · exact Or.inl (by omega)
  · exact Or.inl (by omega)
  · exact Or.inl (by omega)
  · refine Or.inr ⟨by omega, ?_⟩
    rcases h1 with h1 | ⟨f1a, f1b, g1⟩ <;> rcases h2 with h2 | ⟨f2a, f2b, g2⟩
    · exact Or.inl (listLtB_trans _ _ _ h1 h2)
    · left
      cases hsu : listLtB a.2.1 c.2.1 with
      | true => rfl
      | false =>
        exfalso
        have : listLtB a.2.1 b.2.1 = false := listLtB_neg_trans _ _ _ hsu f2b
        rw [this] at h1; cases h1
    · left
      cases hsu : listLtB a.2.1 c.2.1 with
      | true => rfl
      | false =>
        exfalso
        have : listLtB b.2.1 c.2.1 = false := listLtB_neg_trans _ _ _ f1b hsu
        rw [this] at h2; cases h2
    · refine Or.inr ⟨listLtB_neg_trans _ _ _ f1a f2a, listLtB_neg_trans _ _ _ f2b f1b,
        listLtB_trans _ _ _ g1 g2⟩

theorem keyLtB_neg_trans {a b c : Nat × List Char × List Char}
    (hab : keyLtB a b = false) (hbc : keyLtB b c = false) : keyLtB a c = false := by
  cases hac : keyLtB a c with
  | false => rfl
  | true =>
    exfalso
    have hab2 : ¬ (keyLtB a b = true) := by rw [hab]; exact fun h => by cases h
    have hbc2 : ¬ (keyLtB b c = true) := by rw [hbc]; exact fun h => by cases h
    rcases (keyLtB_iff a c).1 hac with h | ⟨e, h⟩
    · -- a.1 < c.1 forces a.1 < b.1 or b.1 < c.1
      by_cases hn : a.1 < b.1
      · exact hab2 ((keyLtB_iff a b).2 (Or.inl hn))
      · exact hbc2 ((keyLtB_iff b c).2 (Or.inl (by omega)))
    · by_cases hn1 : a.1 < b.1
      · exact hab2 ((keyLtB_iff a b).2 (Or.inl hn1))
      · by_cases hn2 : b.1 < c.1
        · exact hbc2 ((keyLtB_iff b c).2 (Or.inl hn2))
        · have e1 : a.1 = b.1 := by omega
          have e2 : b.1 = c.1 := by omega
          rcases h with h | ⟨f1, f2, g⟩
          · -- a.2.1 < c.2.1 forces a < b or b < c at the second layer
            cases hst : listLtB a.2.1 b.2.1 with
            | true => exact hab2 ((keyLtB_iff a b).2 (Or.inr ⟨e1, Or.inl hst⟩))
            | false =>
              cases htu : listLtB b.2.1 c.2.1 with
              | true => exact hbc2 ((keyLtB_iff b c).2 (Or.inr ⟨e2, Or.inl htu⟩))
              | false =>
                have : listLtB a.2.1 c.2.1 = false := listLtB_neg_trans _ _ _ hst htu
                rw [this] at h; cases h
          · -- second layers tie, third layer a < c
            cases hst : listLtB a.2.1 b.2.1 with
            | true => exact hab2 ((keyLtB_iff a b).2 (Or.inr ⟨e1, Or.inl hst⟩))
            | false =>
              cases htu : listLtB b.2.1 c.2.1 with
              | true => exact hbc2 ((keyLtB_iff b c).2 (Or.inr ⟨e2, Or.inl htu⟩))
              | false =>
                cases hts : listLtB b.2.1 a.2.1 with
                | true =>
                  have : listLtB b.2.1 c.2.1 = true := by
                    cases hx : listLtB b.2.1 c.2.1 with
                    | true => rfl
                    | false =>
                      exfalso
                      have : listLtB b.2.1 a.2.1 = false := listLtB_neg_trans _ _ _ hx f2
                      rw [this] at hts; cases hts
                  rw [this] at htu; cases htu
                | false =>
                  cases hut : listLtB c.2.1 b.2.1 with
                  | true =>
                    have : listLtB c.2.1 a.2.1 = true := by
                      cases hx : listLtB c.2.1 a.2.1 with
                      | true => rfl
                      | false =>
                        exfalso
                        have : listLtB c.2.1 b.2.1 = false := listLtB_neg_trans _ _ _ hx hst
                        rw [this] at hut; cases hut
                    rw [this] at f2; cases f2
                  | false =>
                    -- all second layers tie; third layer via neg-trans
                    cases hpq : listLtB a.2.2 b.2.2 with
                    | true =>
                      exact hab2 ((keyLtB_iff a b).2 (Or.inr ⟨e1, Or.inr ⟨hst, hts, hpq⟩⟩))
                    | false =>
                      cases hqr : listLtB b.2.2 c.2.2 with
                      | true =>
                        exact hbc2 ((keyLtB_iff b c).2 (Or.inr ⟨e2, Or.inr ⟨htu, hut, hqr⟩⟩))
                      | false =>
                        have : listLtB a.2.2 c.2.2 = false := listLtB_neg_trans _ _ _ hpq hqr
                        rw [this] at g; cases g

/-- Block test of the first scan: a known support-sender marker and a
"Subject" marker, both case-insensitive (`is_hpe and has_subject`). -/
def hpeBlockMarkers (block : String) : Bool :=
  (containsSub (strLower block) "hpe support engineer" ||
    containsSub (strLower block) "hewlett packard enterprise" ||
    containsSub (strLower block) "hpe services") &&
  containsSub (strLower block) "subject"

/-- One step of the first scan of `pick_last_hpe_message`: a qualifying block
with a parsed timestamp strictly greater than the current best replaces it;
qualifying blocks with unparsable timestamps are skipped. -/
def pbStep (best : Option (Nat × String × String)) (p : String × String) :
    Option (Nat × String × String) :=
  if hpeBlockMarkers p.2 then
    match parse_ts p.1, best with
    | some d, none => some (d, p.1, p.2)
    | some d, some b => if b.1 < d then some (d, p.1, p.2) else some b
    | none, b => b
  else best

/-- The fallback sort key `(parse_ts(ts) or datetime.min, ts, block)`. -/
def fallbackKey (p : String × String) : Nat × List Char × List Char :=
  ((parse_ts p.1).getD dtMin, p.1.toList, p.2.toList)

def fbStep (best q : String × String) : String × String :=
  if keyLtB (fallbackKey best) (fallbackKey q) then q else best

/-- The fallback `scored.sort(reverse=True); scored[0]`: the key-maximal
element (keys are distinct unless the pairs are identical, since the key
embeds the whole pair). -/
def fallbackPick : List (String × String) → Option (String × String)
  | [] => none
  | p :: ps => some (ps.foldl fbStep p)

/-- Embedding of `pick_last_hpe_message(blocks)`. -/
def pick_last_hpe_message (blocks : List (String × String)) :
    Option (String × String) :=
  match blocks.foldl pbStep none with
  | some b => some (b.2.1, b.2.2)
  | none => fallbackPick blocks

theorem pbStep_none (acc : Option (Nat × String × String)) (p : String × String)
    (h : pbStep acc p = none) :
    acc = none ∧ ¬(hpeBlockMarkers p.2 = true ∧ (parse_ts p.1).isSome = true) := by
  unfold pbStep at h
  by_cases hm : hpeBlockMarkers p.2 = true
  · rw [if_pos hm] at h
    cases hp : parse_ts p.1 with
    | none =>
      rw [hp] at h
      refine ⟨h, ?_⟩
      rintro ⟨-, hs⟩
      simp at hs
    | some d =>
      rw [hp] at h
      cases acc with
      | none => cases h
      | some b =>
        have h2 : (if b.1 < d then some (d, p.1, p.2) else some b) = none := h
        by_cases hlt : b.1 < d
        · rw [if_pos hlt] at h2; cases h2
        · rw [if_neg hlt] at h2; cases h2
  · rw [if_neg hm] at h
    exact ⟨h, fun hc => hm hc.1⟩

theorem pbStep_mono (acc : Option (Nat × String × String)) (p : String × String)
    (s : Nat × String × String) (h : acc = some s) :
    ∃ r, pbStep acc p = some r ∧ s.1 ≤ r.1 := by
  subst h
  unfold pbStep
  by_cases hm : hpeBlockMarkers p.2 = true
  · rw [if_pos hm]
    cases hp : parse_ts p.1 with
    | none => exact ⟨s, rfl, le_refl _⟩
    | some d =>
      by_cases hlt : s.1 < d
      · refine ⟨(d, p.1, p.2), ?_, le_of_lt hlt⟩
        show (if s.1 < d then some (d, p.1, p.2) else some s) = _
        rw [if_pos hlt]
      · refine ⟨s, ?_, le_refl _⟩
        show (if s.1 < d then some (d, p.1, p.2) else some s) = some s
        rw [if_neg hlt]
  · rw [if_neg hm]
    exact ⟨s, rfl, le_refl _⟩

theorem pbStep_covers (acc : Option (Nat × String × String)) (p : String × String)
    (d : Nat) (hm : hpeBlockMarkers p.2 = true) (hp : parse_ts p.1 = some d) :
    ∃ r, pbStep acc p = some r ∧ d ≤ r.1 := by
  unfold pbStep
  rw [if_pos hm, hp]
  cases acc with
  | none => exact ⟨(d, p.1, p.2), rfl, le_refl _⟩
  | some b =>
    by_cases hlt : b.1 < d
    · refine ⟨(d, p.1, p.2), ?_, le_refl _⟩
      show (if b.1 < d then some (d, p.1, p.2) else some b) = _
      rw [if_pos hlt]
    · refine ⟨b, ?_, by omega⟩
      show (if b.1 < d then some (d, p.1, p.2) else some b) = some b
      rw [if_neg hlt]

theorem pbStep_src (acc : Option (Nat × String × String)) (p : String × String)
    (r : Nat × String × String) (h : pbStep acc p = some r) :
    acc = some r ∨ (hpeBlockMarkers p.2 = true ∧ parse_ts p.1 = some r.1 ∧
      r.2.1 = p.1 ∧ r.2.2 = p.2) := by
  unfold pbStep at h
  by_cases hm : hpeBlockMarkers p.2 = true
  · rw [if_pos hm] at h
    cases hp : parse_ts p.1 with
    | none =>
      rw [hp] at h
      exact Or.inl h
    | some d =>
      rw [hp] at h
      cases acc with
      | none =>
        have h2 : (d, p.1, p.2) = r := Option.some.inj h
        right
        rw [← h2]
        exact ⟨hm, by rfl, rfl, rfl⟩
      | some b =>
        have h2 : (if b.1 < d then some (d, p.1, p.2) else some b) = some r := h
        by_cases hlt : b.1 < d
        · rw [if_pos hlt] at h2
          have h3 : (d, p.1, p.2) = r := Option.some.inj h2
          right
          rw [← h3]
          exact ⟨hm, by rfl, rfl, rfl⟩
        · rw [if_neg hlt] at h2
          exact Or.inl h2
  · rw [if_neg hm] at h
    exact Or.inl h

theorem pbFold_none : ∀ (ps : List (String × String)) acc,
    ps.foldl pbStep acc = none →
    acc = none ∧ ∀ p ∈ ps, ¬(hpeBlockMarkers p.2 = true ∧ (parse_ts p.1).isSome = true) := by
  intro ps
  induction ps with
  | nil => intro acc h; exact ⟨h, by simp⟩
  | cons p ps ih =>
    intro acc h
    obtain ⟨h1, h2⟩ := ih (pbStep acc p) h
    obtain ⟨h3, h4⟩ := pbStep_none acc p h1
    refine ⟨h3, ?_⟩
    intro q hq
    rcases List.mem_cons.1 hq with rfl | hq2
    · exact h4
    · exact h2 q hq2

theorem pbFold_ge : ∀ (ps : List (String × String)) acc (b : Nat × String × String),
    ps.foldl pbStep acc = some b →
    (∀ q ∈ ps, hpeBlockMarkers q.2 = true → ∀ dq, parse_ts q.1 = some dq → dq ≤ b.1) ∧
    (∀ s, acc = some s → s.1 ≤ b.1) := by
  intro ps
  induction ps with
  | nil =>
    intro acc b h
    refine ⟨by simp, fun s hs => ?_⟩
    rw [hs] at h
    have h2 : s = b := Option.some.inj h
    rw [h2]
  | cons p ps ih =>
    intro acc b h
    obtain ⟨hps, hacc⟩ := ih (pbStep acc p) b h
    refine ⟨?_, ?_⟩
    · intro q hq hqm dq hdq
      rcases List.mem_cons.1 hq with rfl | hq2
      · obtain ⟨r, hr, hdr⟩ := pbStep_covers acc q dq hqm hdq
        exact le_trans hdr (hacc r hr)
      · exact hps q hq2 hqm dq hdq
    · intro s hs
      obtain ⟨r, hr, hsr⟩ := pbStep_mono acc p s hs
      exact le_trans hsr (hacc r hr)

theorem pbFold_src : ∀ (ps : List (String × String)) acc (b : Nat × String × String),
    ps.foldl pbStep acc = some b →
    acc = some b ∨ ((b.2.1, b.2.2) ∈ ps ∧ hpeBlockMarkers b.2.2 = true ∧
      parse_ts b.2.1 = some b.1) := by
  intro ps
  induction ps with
  | nil => intro acc b h; exact Or.inl h
  | cons p ps ih =>
    intro acc b h
    rcases ih (pbStep acc p) b h with h2 | h2
    · rcases pbStep_src acc p b h2 with h3 | h3
      · exact Or.inl h3
      · right
        refine ⟨?_, ?_, ?_⟩
        · rw [h3.2.2.1, h3.2.2.2]
          exact List.mem_cons_self _ _
        · rw [h3.2.2.2]
          exact h3.1
        · rw [h3.2.2.1]
          exact h3.2.1
    · exact Or.inr ⟨List.mem_cons_of_mem p h2.1, h2.2⟩

theorem fallbackFold : ∀ (ps : List (String × String)) (p : String × String),
    (ps.foldl fbStep p = p ∨ ps.foldl fbStep p ∈ ps) ∧
    keyLtB (fallbackKey (ps.foldl fbStep p)) (fallbackKey p) = false ∧
    ∀ q ∈ ps, keyLtB (fallbackKey (ps.foldl fbStep p)) (fallbackKey q) = false := by
  intro ps
  induction ps with
  | nil => intro p; exact ⟨Or.inl rfl, keyLtB_irrefl _, by simp⟩
  | cons q0 ps ih =>
    intro p
    obtain ⟨hmem, hbp, hall⟩ := ih (fbStep p q0)
    rw [List.foldl_cons]
    by_cases h0 : keyLtB (fallbackKey p) (fallbackKey q0) = true
    · have hstep : fbStep p q0 = q0 := by unfold fbStep; rw [if_pos h0]
      rw [hstep] at hmem hbp hall
      rw [hstep]
      refine ⟨?_, ?_, ?_⟩
      · rcases hmem with h | h
        · right; rw [h]; exact List.mem_cons_self _ _
        · right; exact List.mem_cons_of_mem _ h
      · cases hrp : keyLtB (fallbackKey (ps.foldl fbStep q0)) (fallbackKey p) with
        | false => rfl
        | true =>
          exfalso
          have hx := keyLtB_trans hrp h0
          rw [hx] at hbp
          cases hbp
      · intro q hq
        rcases List.mem_cons.1 hq with rfl | hq2
        · exact hbp
        · exact hall q hq2
    · have h0f : keyLtB (fallbackKey p) (fallbackKey q0) = false := by
        cases hx : keyLtB (fallbackKey p) (fallbackKey q0) with
        | false => rfl
        | true => exact absurd hx h0
      have hstep : fbStep p q0 = p := by
        unfold fbStep
        rw [h0f]
        rfl
      rw [hstep] at hmem hbp hall
      rw [hstep]
      refine ⟨?_, hbp, ?_⟩
      · rcases hmem with h | h
        · left; exact h
        · right; exact List.mem_cons_of_mem _ h
      · intro q hq
        rcases List.mem_cons.1 hq with rfl | hq2
        · exact keyLtB_neg_trans hbp h0f
        · exact hall q hq2

/-- C5: for every non-empty list of communication blocks,
`pick_last_hpe_message` returns a block of the list; when some block both
carries the support-sender and "Subject" markers and has a parsable
timestamp, the returned block is such a block with the greatest parsed
timestamp; otherwise the returned block is maximal among all blocks under
the fallback key (parsed timestamp, with unparsable timestamps sorting as
the minimal `datetime.min`; ties broken by the raw timestamp string and the
block text, as Python tuple sorting does). -/
theorem pick_last_hpe_message_spec (blocks : List (String × String))
    (hne : blocks ≠ []) :
    ∃ r, pick_last_hpe_message blocks = some r ∧ r ∈ blocks ∧
      ((∃ p ∈ blocks, hpeBlockMarkers p.2 = true ∧ (parse_ts p.1).isSome = true) →
        hpeBlockMarkers r.2 = true ∧ ∃ d, parse_ts r.1 = some d ∧
          ∀ q ∈ blocks, hpeBlockMarkers q.2 = true →
            ∀ dq, parse_ts q.1 = some dq → dq ≤ d) ∧
      ((∀ p ∈ blocks, ¬(hpeBlockMarkers p.2 = true ∧ (parse_ts p.1).isSome = true)) →
        ∀ q ∈ blocks, keyLtB (fallbackKey r) (fallbackKey q) = false) := by
  cases hfold : blocks.foldl pbStep none with
  | some b =>
    refine ⟨(b.2.1, b.2.2), ?_, ?_, ?_, ?_⟩
    · unfold pick_last_hpe_message
      rw [hfold]
    · rcases pbFold_src blocks none b hfold with h | h
      · cases h
      · exact h.1
    · intro _
      rcases pbFold_src blocks none b hfold with h | h
      · cases h
      · exact ⟨h.2.1, b.1, h.2.2, (pbFold_ge blocks none b hfold).1⟩
    · intro hnone
      rcases pbFold_src blocks none b hfold with h | h
      · cases h
      · exact absurd ⟨h.2.1, by rw [h.2.2]; rfl⟩ (hnone (b.2.1, b.2.2) h.1)
  | none =>
    obtain ⟨-, hnoqual⟩ := pbFold_none blocks none hfold
    cases blocks with
    | nil => exact absurd rfl hne
    | cons p ps =>
      obtain ⟨hmem, hbp, hall⟩ := fallbackFold ps p
      refine ⟨ps.foldl fbStep p, ?_, ?_, ?_, ?_⟩
      · unfold pick_last_hpe_message
        rw [hfold]
        rfl
      · rcases hmem with h | h
        · rw [h]; exact List.mem_cons_self _ _
        · exact List.mem_cons_of_mem _ h
      · intro hex
        obtain ⟨q, hq, hq2⟩ := hex
        exact absurd hq2 (hnoqual q hq)
      · intro _ q hq
        rcases List.mem_cons.1 hq with rfl | hq2
        · exact hbp
        · exact hall q hq2

theorem pick_last_hpe_message_spec_witness :
    ∃ r, pick_last_hpe_message
        [("Jan 2, 2024, 1:05 PM", "HPE Support Engineer update. Subject below."),
         ("Jan 3, 2024, 9:00 AM", "customer reply")] = some r ∧
      r ∈ [("Jan 2, 2024, 1:05 PM", "HPE Support Engineer update. Subject below."),
           ("Jan 3, 2024, 9:00 AM", "customer reply")] ∧
      ((∃ p ∈ [("Jan 2, 2024, 1:05 PM", "HPE Support Engineer update. Subject below."),
               ("Jan 3, 2024, 9:00 AM", "customer reply")],
          hpeBlockMarkers p.2 = true ∧ (parse_ts p.1).isSome = true) →
        hpeBlockMarkers r.2 = true ∧ ∃ d, parse_ts r.1 = some d ∧
          ∀ q ∈ [("Jan 2, 2024, 1:05 PM", "HPE Support Engineer update. Subject below."),
                 ("Jan 3, 2024, 9:00 AM", "customer reply")],
            hpeBlockMarkers q.2 = true → ∀ dq, parse_ts q.1 = some dq → dq ≤ d) ∧
      ((∀ p ∈ [("Jan 2, 2024, 1:05 PM", "HPE Support Engineer update. Subject below."),
               ("Jan 3, 2024, 9:00 AM", "customer reply")],
          ¬(hpeBlockMarkers p.2 = true ∧ (parse_ts p.1).isSome = true)) →
        ∀ q ∈ [("Jan 2, 2024, 1:05 PM", "HPE Support Engineer update. Subject below."),
               ("Jan 3, 2024, 9:00 AM", "customer reply")],
          keyLtB (fallbackKey r) (fallbackKey q) = false) :=
  pick_last_hpe_message_spec
    [("Jan 2, 2024, 1:05 PM", "HPE Support Engineer update. Subject below."),
     ("Jan 3, 2024, 9:00 AM", "customer reply")] (by decide)

/-! ## Host extraction (`find_host_name`, src 872-874 and 1072-1117) -/

def isAlnumA (c : Char) : Bool := c.isAlpha || c.isDigit

/-- The character class `[A-Za-z0-9._-]` of `HOST_TOKEN_RX`. -/
def isHostClass (c : Char) : Bool :=
  c.isAlpha || c.isDigit || c == '.' || c == '_' || c == '-'

/-- `HOST_TOKEN_RX.search`: the earliest token
`[A-Za-z0-9][A-Za-z0-9._-]{2,}`, with the greedy maximal tail. -/
def hostTokenSearch : List Char → Option (List Char)
  | [] => none
  | c :: cs =>
    if isAlnumA c = true ∧ 2 ≤ (cs.takeWhile isHostClass).length then
      some (c :: cs.takeWhile isHostClass)
    else hostTokenSearch cs

/-- The glued-word trim `^([A-Za-z0-9._-]*\d)[A-Za-z]{2,}$` applied to a
token (whose characters are all in the class): when the maximal all-letter
suffix has length ≥ 2 and is preceded by a digit, cut back to that digit. -/
def trimGluedWords (host : List Char) : List Char :=
  match host.reverse.dropWhile Char.isAlpha with
  | [] => host
  | d :: rest2 =>
    if d.isDigit = true ∧ 2 ≤ (host.reverse.takeWhile Char.isAlpha).length then
      (d :: rest2).reverse
    else host

def hostCuts1 : List String :=
  ["You will", "You can", "You may", "You should", "You will receive", "You can view"]

def hostCuts2 : List String := ["You will", "You can", "You may", "You should"]

/-- First index at which `needle` occurs in the list, if any. -/
def indexOfSub (needle : List Char) : List Char → Option Nat
  | [] => if needle.isEmpty then some 0 else none
  | c :: cs =>
    if startsWithL needle (c :: cs) then some 0
    else
      match indexOfSub needle cs with
      | some i => some (i + 1)
      | none => none

/-- `if cut in val: val = val.split(cut, 1)[0].strip()`. -/
def applyCut (val : List Char) (cut : String) : List Char :=
  match indexOfSub cut.toList val with
  | some i => pyStrip (val.take i)
  | none => val

def applyCuts (cuts : List String) (val : List Char) : List Char :=
  cuts.foldl applyCut val

/-- Match label chunks separated by `\s*` (case-insensitive); returns the
rest of the input after the label. -/
def matchChunks : List (List Char) → List Char → Option (List Char)
  | [], cs => some cs
  | [w], cs =>
    match matchCIKeep w cs with
    | some (_, r) => some r
    | none => none
  | w :: ws, cs =>
    match matchCIKeep w cs with
    | none => none
    | some (_, r) => matchChunks ws (r.dropWhile isPySpace)

/-- The full-text pattern
`(?is)(System\s*Name/Host\s*Name|Host\s*Name|System\s*Name)\s*:\s*([^\r\n]{0,200})`
tried at one position, alternatives in regex order; returns the greedy value
capture. -/
def hostMatchAt (cs : List Char) : Option (List Char) :=
  let tryAlt := fun (alt : List (List Char)) =>
    match matchChunks alt cs with
    | none => none
    | some r1 =>
      match r1.dropWhile isPySpace with
      | ':' :: r2 =>
        some (((r2.dropWhile isPySpace).takeWhile
          (fun c => !(c == '\r') && !(c == '\n'))).take 200)
      | _ => none
  match tryAlt ["system".toList, "name/host".toList, "name".toList] with
  | some v => some v
  | none =>
    match tryAlt ["host".toList, "name".toList] with
    | some v => some v
    | none => tryAlt ["system".toList, "name".toList]

/-- `re.search`: the match at the earliest position. -/
def hostSearch : List Char → Option (List Char)
  | [] => none
  | c :: cs =>
    match hostMatchAt (c :: cs) with
    | some v => some v
    | none => hostSearch cs

/-- Branch-1 processing of the captured value: strip, glued-prose cuts,
token search, glued-word trim (the stop-list check happens at the caller). -/
def hostFromVal (captured : List Char) : Option (List Char) :=
  match hostTokenSearch (applyCuts hostCuts1 (pyStrip captured)) with
  | none => none
  | some tok => some (trimGluedWords tok)

def STOP_HOST_VALUES : List String :=
  ["problem", "additional", "serial", "case", "event", "none", "null", "n/a"]

/-- `HOST_LINE_RX.match(line.strip())`: anchored, case-insensitive, literal
label spellings, value = the rest after the colon with surrounding
whitespace stripped. -/
def hostLineVal (line : List Char) : Option (List Char) :=
  let cs := (pyStrip line).dropWhile isLineSpace
  let tryLit := fun (lab : String) =>
    match matchCIKeep lab.toList cs with
    | none => none
    | some (_, r1) =>
      match r1.dropWhile isLineSpace with
      | ':' :: r2 => some (pyStrip r2)
      | _ => none
  match tryLit "system name/host name" with
  | some v => some v
  | none =>
    match tryLit "system name" with
    | some v => some v
    | none => tryLit "host name"

/-- One line of the fallback loop: empty values, token-less values and
stop-listed tokens are skipped (`continue`); no glued-word trim here. -/
def hostFromLine (line : List Char) : Option (List Char) :=
  match hostLineVal line with
  | none => none
  | some val0 =>
    if val0 = [] then none
    else
      match hostTokenSearch (applyCuts hostCuts2 val0) with
      | none => none
      | some tok =>
        if STOP_HOST_VALUES.contains (tok.map Char.toLower).asString then none
        else some tok

def hostFallbackLines : List (List Char) → List Char
  | [] => []
  | ln :: rest =>
    match hostFromLine ln with
    | some h => h
    | none => hostFallbackLines rest

/-- Embedding of `find_host_name(text)`. -/
def find_host_name (text : String) : String :=
  if text = "" then ""
  else
    match hostSearch text.toList with
    | none => (hostFallbackLines (splitNl (normNl text.toList))).asString
    | some captured =>
      match hostFromVal captured with
      | none => (hostFallbackLines (splitNl (normNl text.toList))).asString
      | some host =>
        if STOP_HOST_VALUES.contains (host.map Char.toLower).asString then
          (hostFallbackLines (splitNl (normNl text.toList))).asString
        else host.asString

/-- C7 counterexample: an input text that does contain
`System Name/Host Name: src123YouWillReceiveAnEmail` but whose first
host-label match is an earlier `Host Name:` occurrence — `find_host_name`
returns that earlier host, not `src123`. -/
theorem find_host_name_first_match_counterexample :
    containsSub "Host Name: box7\nSystem Name/Host Name: src123YouWillReceiveAnEmail"
      "System Name/Host Name: src123YouWillReceiveAnEmail" = true ∧
    find_host_name "Host Name: box7\nSystem Name/Host Name: src123YouWillReceiveAnEmail" =
      "box7" :=
  ⟨by decide, by decide⟩

/-- C7 (amended): for every input text whose EARLIEST host-label match
captures the value `src123YouWillReceiveAnEmail`, `find_host_name` returns
exactly `src123` — the token ending in trailing letters after its last digit
is truncated back to that digit; and a value from the stop-list of non-host
words is rejected, as the concrete `serial` input shows. -/
theorem find_host_name_amended :
    (∀ t : String, t ≠ "" →
      hostSearch t.toList = some "src123YouWillReceiveAnEmail".toList →
      find_host_name t = "src123") ∧
    find_host_name "System Name/Host Name: serial" = "" := by
  constructor
  · intro t ht hs
    unfold find_host_name
    rw [if_neg ht, hs]
    rfl
  · decide

theorem find_host_name_amended_witness :
    find_host_name "System Name/Host Name: src123YouWillReceiveAnEmail" = "src123" :=
  find_host_name_amended.1 "System Name/Host Name: src123YouWillReceiveAnEmail"
    (by decide) (by decide)
